import Mathlib

/-!
Verification of the `scaler` number-formatting library (files `src/round.rs`,
`src/options.rs`, `src/lib.rs`, `src/format.rs`).

The Rust code computes with IEEE-754 `f64`.  This development embeds the
algorithms over exact rationals (`ℚ`): every arithmetic operation of the source
(`*`, `/`, `powi`, `powf` at the integer exponents the code uses,
`round_ties_even`, `log2`/`log10` composed with `floor` or used only through
floor-measurable expressions) is modelled exactly.  The special values
`NaN`, `±∞` and the negative-zero input are modelled by the carrier type `F64`;
the source short-circuits or normalises them before any arithmetic, which the
embedding mirrors.  The idealisation identifies a rounded result `-0.0` with
`+0.0` (IEEE sign-of-zero produced by rounding a nonzero value is not tracked).
Because exact arithmetic has no overflow, a second, saturating layer
(`roundF64`, `round_magF`, `formatF`, …) additionally models the binary64
range: there `powi` and multiplication overflow to `±∞`, underflow to `0`,
and `∞ * 0 = NaN`, reproducing the source's behaviour on the rounding paths
where exactness and `f64` genuinely part ways.

Strings are modelled as `List Char`.  Rust byte indices coincide with the
character indices used here on every position the algorithm touches (all
characters left of any insertion point are ASCII); the one place the source
mixes a byte length with a character count (`s.len() - pos` in the
group-separator search) is modelled faithfully via `utf8Len`.

All definitions are structurally recursive (fuel-based where the source loop
is not structural) so that concrete runs reduce inside the kernel.
-/

namespace Scaler

/-! ### Kernel-computable integer logarithms

`Mathlib`'s `Nat.log`/`Nat.clog`/`Int.log` are defined by well-founded
recursion and do not reduce by `decide`; the following fuel-based versions are
proved equal to them (see `natLog_eq` etc. below) and are used in the
embedding. -/

def natLogF (b : ℕ) : ℕ → ℕ → ℕ
  | 0, _ => 0
  | fuel+1, n => if b ≤ n ∧ 1 < b then natLogF b fuel (n / b) + 1 else 0

/-- Floor logarithm on `ℕ`, kernel-computable version of `Nat.log`. -/
def natLog (b n : ℕ) : ℕ := natLogF b n n

def natClogF (b : ℕ) : ℕ → ℕ → ℕ
  | 0, _ => 0
  | fuel+1, n => if 1 < b ∧ 1 < n then natClogF b fuel ((n + b - 1) / b) + 1 else 0

/-- Ceiling logarithm on `ℕ`, kernel-computable version of `Nat.clog`. -/
def natClog (b n : ℕ) : ℕ := natClogF b n n

/-- Kernel-computable version of `Int.log` on `ℚ`: for `0 < q` this is
`⌊Real.logb b q⌋`. -/
def intLogQ (b : ℕ) (q : ℚ) : ℤ :=
  if 1 ≤ q then (natLog b ⌊q⌋₊ : ℤ) else -(natClog b ⌈q⁻¹⌉₊ : ℤ)

/-! ### `src/round.rs` -/

/-- IEEE `round_ties_even` on an exact rational: nearest integer, ties to the
even neighbour (`f64::round_ties_even`). -/
def roundTiesEven (q : ℚ) : ℤ :=
  if q - ⌊q⌋ < 1/2 then ⌊q⌋
  else if 1/2 < q - ⌊q⌋ then ⌊q⌋ + 1
  else if ⌊q⌋ % 2 = 0 then ⌊q⌋ else ⌊q⌋ + 1

/-- `Round::round_mag` from `src/round.rs`: round `x` to the digit at
`10^magnitude`; zero is returned unchanged.  Exact-arithmetic idealisation:
see `round_magF` further down for the saturating `f64` version, which
differs exactly when `powi` overflows or underflows. -/
def round_mag (x : ℚ) (magnitude : ℤ) : ℚ :=
  if x = 0 then 0
  else (roundTiesEven (x * (10:ℚ) ^ (-magnitude)) : ℚ) * (10:ℚ) ^ magnitude

/-- `Round::round_sig` from `src/round.rs`: round `x` to `significants`
significant digits; zero input or zero significants yields zero. -/
def round_sig (x : ℚ) (significants : ℕ) : ℚ :=
  if x = 0 ∨ significants = 0 then 0
  else round_mag x (intLogQ 10 |x| - significants + 1)

/-! ### `src/options.rs` -/

inductive Rounding : Type
  /-- round statically to digit at `10^n`, contains precision `n : i16` -/
  | Magnitude : ℤ → Rounding
  /-- round dynamically to `n` significant digits, contains precision `n : u8` -/
  | SignificantDigits : ℕ → Rounding
deriving DecidableEq

inductive Scaling : Type
  /-- scaling by `2^10`, fallback to scientific notation; contains whitespace flag -/
  | Binary : Bool → Scaling
  /-- scaling by `10^3`, fallback to scientific notation; contains whitespace flag -/
  | Decimal : Bool → Scaling
  /-- no scaling, no fallback -/
  | None : Scaling
  /-- always scientific notation -/
  | Scientific : Scaling
deriving DecidableEq

inductive Sign : Type
  | Always
  | OnlyMinus
deriving DecidableEq

/-! ### `src/lib.rs`: the `Formatter` configuration record -/

structure Formatter : Type where
  decimal_separator : List Char
  group_separator : List Char
  rounding : Rounding
  scaling : Scaling
  sign : Sign
deriving DecidableEq

/-- `Formatter::new` -/
def Formatter.new : Formatter :=
  { decimal_separator := [',']
    group_separator := ['.']
    rounding := .SignificantDigits 4
    scaling := .Decimal true
    sign := .OnlyMinus }

/-- `Formatter::set_rounding` -/
def Formatter.set_rounding (f : Formatter) (rounding : Rounding) : Formatter :=
  { f with rounding := rounding }

/-- `Formatter::set_scaling` -/
def Formatter.set_scaling (f : Formatter) (scaling : Scaling) : Formatter :=
  { f with scaling := scaling }

/-- `Formatter::set_separators` (argument order of the source: group separator
first, decimal separator second; the diagnostic warnings are side effects only
and do not change the configuration). -/
def Formatter.set_separators (f : Formatter) (g d : List Char) : Formatter :=
  { f with group_separator := g, decimal_separator := d }

/-- `Formatter::set_sign` -/
def Formatter.set_sign (f : Formatter) (sign : Sign) : Formatter :=
  { f with sign := sign }

/-- Model of the `f64` argument domain of `Formatter::format`: NaN, the two
infinities, negative zero, and finite values (`fin q` with `q = 0` is `+0.0`). -/
inductive F64 : Type
  | nan
  | inf
  | negInf
  | negZero
  | fin : ℚ → F64
deriving DecidableEq

/-! ### Decimal rendering (`format!("{:.*}", dp, x)` and `{}` on integral `f64`) -/

/-- The character of a decimal digit `d < 10`. -/
def digitChar (d : ℕ) : Char := Char.ofNat (48 + d)

def natDigitsF : ℕ → ℕ → List Char
  | 0, _ => []
  | fuel+1, n =>
    if n < 10 then [digitChar n] else natDigitsF fuel (n / 10) ++ [digitChar (n % 10)]

/-- Decimal digit string of a natural number, most significant digit first. -/
def natDigits (n : ℕ) : List Char := natDigitsF (n + 1) n

/-- Rendering of an integer-valued `f64` by Rust's `Display` (`"90"`, `"-10"`). -/
def intChars (k : ℤ) : List Char :=
  if k < 0 then '-' :: natDigits k.natAbs else natDigits k.natAbs

/-- Rust `format!("{:.*}", dp, x)` on a finite value, idealised over `ℚ`:
round the value at `dp` fractional digits (ties to even) and print it with
exactly `dp` fractional digits, with a leading `-` for negative input. -/
def renderFixed (x : ℚ) (dp : ℕ) : List Char :=
  let n : ℕ := (roundTiesEven (|x| * (10:ℚ) ^ dp)).toNat
  let ds := natDigits n
  let body :=
    if dp = 0 then ds
    else
      let ds' := List.replicate (dp + 1 - ds.length) '0' ++ ds
      ds'.take (ds'.length - dp) ++ ['.'] ++ ds'.drop (ds'.length - dp)
  if x < 0 then '-' :: body else body

/-- Rust `str::trim_end` (only `' '` can occur trailing in this pipeline). -/
def trimEnd (s : List Char) : List Char := (s.reverse.dropWhile (fun c => c == ' ')).reverse

/-! ### `src/format.rs` -/

/-- `BINARY_PREFIXES`: `[lower, upper)` magnitude ranges and unit symbols. -/
def BINARY_PREFIXES : List (ℤ × ℤ × List Char) :=
  [(0, 10, []), (10, 20, ['K', 'i']), (20, 30, ['M', 'i']), (30, 40, ['G', 'i']),
   (40, 50, ['T', 'i']), (50, 60, ['P', 'i']), (60, 70, ['E', 'i']),
   (70, 80, ['Z', 'i']), (80, 90, ['Y', 'i'])]

/-- `DECIMAL_PREFIXES`: `[lower, upper)` magnitude ranges and SI unit symbols. -/
def DECIMAL_PREFIXES : List (ℤ × ℤ × List Char) :=
  [(-30, -27, ['q']), (-27, -24, ['r']), (-24, -21, ['y']), (-21, -18, ['z']),
   (-18, -15, ['a']), (-15, -12, ['f']), (-12, -9, ['p']), (-9, -6, ['n']),
   (-6, -3, ['µ']), (-3, 0, ['m']), (0, 3, []), (3, 6, ['k']), (6, 9, ['M']),
   (9, 12, ['G']), (12, 15, ['T']), (15, 18, ['P']), (18, 21, ['E']),
   (21, 24, ['Z']), (24, 27, ['Y']), (27, 30, ['R']), (30, 33, ['Q'])]

/-- `iter().find(|(lower, upper, _)| lower ≤ magnitude ∧ magnitude < upper)`.
The source compares the real magnitude against the integer bounds; since the
bounds are integers this is equivalent to comparing `⌊magnitude⌋`. -/
def findUnit (m : ℤ) : List (ℤ × ℤ × List Char) → Option (ℤ × ℤ × List Char)
  | [] => none
  | u :: us => if u.1 ≤ m ∧ m < u.2.1 then some u else findUnit m us

/-- `⌊magnitude⌋` of the rounded value: the source sets `magnitude = 0` for a
zero value and otherwise takes `log2 |x|` (binary scaling) or `log10 |x|`. -/
def magFloor (sc : Scaling) (x : ℚ) : ℤ :=
  if x = 0 then 0
  else match sc with
    | .Binary _ => intLogQ 2 |x|
    | _ => intLogQ 10 |x|

/-- The `dec_places` computation of `Formatter::format` (signed; clamped to
`0` later).  `magnitude - magnitude.rem_euclid(k)` of the source equals
`k * ⌊magnitude/k⌋`, and `⌊magnitude.rem_euclid(k)⌋` equals `⌊magnitude⌋ % k`,
so every branch is expressed through `magFloor`. -/
def dec_places (sc : Scaling) (r : Rounding) (x : ℚ) : ℤ :=
  match sc, r with
  | .Binary _, .Magnitude p =>
    match findUnit (magFloor sc x) BINARY_PREFIXES with
    | some _ => intLogQ 10 ((2:ℚ) ^ (10 * (magFloor sc x / 10))) - p - 1
    | none => magFloor sc x
  | .Binary _, .SignificantDigits p =>
    match findUnit (magFloor sc x) BINARY_PREFIXES with
    | some _ => -intLogQ 10 (|x| / (2:ℚ) ^ (10 * (magFloor sc x / 10))) + p - 1
    | none => (p : ℤ) - 1
  | .Decimal _, .Magnitude p =>
    match findUnit (magFloor sc x) DECIMAL_PREFIXES with
    | some _ => 3 * (magFloor sc x / 3) - p
    | none => magFloor sc x
  | .Decimal _, .SignificantDigits p =>
    match findUnit (magFloor sc x) DECIMAL_PREFIXES with
    | some _ => -(magFloor sc x % 3) + p - 1
    | none => (p : ℤ) - 1
  | .None, .Magnitude p => -p
  | .None, .SignificantDigits p => -magFloor sc x + p - 1
  | .Scientific, .Magnitude _ => magFloor sc x
  | .Scientific, .SignificantDigits p => (p : ℤ) - 1

/-- The scientific-notation fallback `format!("{:.*} * b^({})", dp, x / b^⌊log_b x⌋, ⌊log_b x⌋)`.
For `x ≤ 0` the source's `x.log… ()` is `NaN` (negative `x`) or `-inf` (zero
`x`), propagating to a `NaN` mantissa, which IEEE arithmetic renders as below. -/
def sciChars (b : ℕ) (x : ℚ) (dp : ℕ) : List Char :=
  if 0 < x then
    renderFixed (x / (b:ℚ) ^ intLogQ b x) dp
      ++ [' ', '*', ' '] ++ natDigits b ++ ['^', '(']
      ++ intChars (intLogQ b x) ++ [')']
  else if x = 0 then
    ['N', 'a', 'N', ' ', '*', ' '] ++ natDigits b ++ ['^', '(', '-', 'i', 'n', 'f', ')']
  else
    ['N', 'a', 'N', ' ', '*', ' '] ++ natDigits b ++ ['^', '(', 'N', 'a', 'N', ')']

/-- The `match self.scaling` rendering block of `Formatter::format`: scale the
(already rounded) value, print it with the clamped decimal-place count, append
the unit symbol (optionally space-separated) or the scientific fallback. -/
def renderScaled (sc : Scaling) (r : Rounding) (x : ℚ) : List Char :=
  let dp : ℕ := (dec_places sc r x).toNat
  match sc with
  | .None => renderFixed x dp
  | .Binary ws =>
    match findUnit (magFloor sc x) BINARY_PREFIXES with
    | some u =>
      trimEnd (renderFixed (x / (2:ℚ) ^ (10 * (magFloor sc x / 10))) dp
        ++ (if ws then [' '] else []) ++ u.2.2)
    | none => sciChars 2 x dp
  | .Decimal ws =>
    match findUnit (magFloor sc x) DECIMAL_PREFIXES with
    | some u =>
      trimEnd (renderFixed (x / (10:ℚ) ^ (3 * (magFloor sc x / 3))) dp
        ++ (if ws then [' '] else []) ++ u.2.2)
    | none => sciChars 10 x dp
  | .Scientific => sciChars 10 x dp

/-- The rounding step of `Formatter::format`. -/
def applyRounding (r : Rounding) (x : ℚ) : ℚ :=
  match r with
  | .Magnitude p => round_mag x p
  | .SignificantDigits p => round_sig x p

/-- The sign step: prepend `+` when the mode is `Always` and the rounded value
is sign-positive. -/
def applySign (sg : Sign) (x : ℚ) (s : List Char) : List Char :=
  if sg = Sign.Always ∧ 0 ≤ x then '+' :: s else s

/-- Rust `str::len` (UTF-8 byte length) of a character list. -/
def utf8Len (s : List Char) : ℕ := (s.map Char.utf8Size).sum

/-- The internal `"{GROUP SEPARATOR}"` marker string. -/
def gsMarker : List Char :=
  [Char.ofNat 123, 'G', 'R', 'O', 'U', 'P', ' ',
   'S', 'E', 'P', 'A', 'R', 'A', 'T', 'O', 'R', Char.ofNat 125]

def groupLoopF (e : ℕ) : ℕ → ℕ → List Char → List Char
  | 0, _, s => s
  | fuel+1, i, s =>
    if e + 3 ≤ i then
      groupLoopF e fuel (i - 3) (s.take (i - 3) ++ gsMarker ++ s.drop (i - 3))
    else s

/-- The `while group_separator_i_earliest + 3 <= i` marker-insertion loop. -/
def groupLoop (e i : ℕ) (s : List Char) : List Char := groupLoopF e i i s

/-- The group-separator block of `Formatter::format` (entered only when the
group separator is nonempty).  `none` models the two `expect` panics (no digit
found).  The anchor `i` is the position of the first `'.'` if any, otherwise
`s.len() - (reversed character position of the last digit)` exactly as in the
source (a byte length minus a character count). -/
def insertGroupSeps (s : List Char) : Option (List Char) :=
  match s.findIdx? (fun c => c.isDigit) with
  | none => none
  | some fd =>
    match s.findIdx? (fun c => c == '.') with
    | some j => some (groupLoop (fd + 1) j s)
    | none =>
      match s.reverse.findIdx? (fun c => c.isDigit) with
      | none => none
      | some rp => some (groupLoop (fd + 1) (utf8Len s - rp) s)

def repAux (pat rep : List Char) : ℕ → List Char → List Char
  | _, [] => []
  | k+1, _ :: cs => repAux pat rep k cs
  | 0, c :: cs =>
    if pat.isPrefixOf (c :: cs) then rep ++ repAux pat rep (pat.length - 1) cs
    else c :: repAux pat rep 0 cs

/-- Rust `str::replace`: replace every (leftmost, non-overlapping) occurrence
of `pat` by `rep`. -/
def replaceAll (pat rep s : List Char) : List Char := repAux pat rep 0 s

/-- `Formatter::format` on a non-special value `x0` (the value reaching the
rounding step: a finite value, with `-0.0` already identified with `0`, which
is exactly what `round_mag`/`round_sig` produce for it).  Exact-arithmetic
idealisation: the rounded value is always finite here; `formatF` further
down refines the pipeline to the saturating `f64` rounding, adding the
paths the source takes when rounding overflows. -/
def formatFinite (f : Formatter) (x0 : ℚ) : Option (List Char) :=
  let x := applyRounding f.rounding x0
  let s := applySign f.sign x (renderScaled f.scaling f.rounding x)
  let s1? := if f.group_separator = [] then some s else insertGroupSeps s
  s1?.map fun s1 =>
    replaceAll gsMarker f.group_separator (replaceAll ['.'] f.decimal_separator s1)

/-- `Formatter::format` from `src/format.rs`.  `none` models a panic of the
`expect` calls in the separator-injection block. -/
def Formatter.format (f : Formatter) (x : F64) : Option (List Char) :=
  match x with
  | .inf => some ['∞']
  | .negInf => some ['-', '∞']
  | .nan => some ['N', 'a', 'N']
  | .negZero => formatFinite f 0
  | .fin q => formatFinite f q

/-- Exchanging the two separator glyphs `'.'` and `','`. -/
def swapSep (c : Char) : Char :=
  if c = '.' then ',' else if c = ',' then '.' else c

/-- Number of decimal digits immediately following the first `'.'`, if any:
the rendered fractional-digit count of an (internal, pre-substitution)
number string. -/
def fracDigitCount : List Char → Option ℕ
  | [] => none
  | c :: cs =>
    if c = '.' then some (cs.takeWhile (fun d => d.isDigit)).length
    else fracDigitCount cs

/-! ### The saturating `f64` layer

The pipeline above idealises every `f64` operation as exact real arithmetic.
That idealisation is value-faithful only while every intermediate result stays
inside the finite `f64` range; `round_mag`, however, multiplies by
`10f64.powi(-m)` and `10f64.powi(m)`, and for large `|m|` the source's `powi`
overflows to `∞` or underflows to `0`, after which `∞ * 0 = NaN`.  The
definitions below refine the rounding step — and the `Formatter::format`
pipeline around it — to this saturation behaviour: finite values are still
carried exactly as `ℚ`, but every multiplication result is rounded to the
representable binary64 set (overflowing to `±∞` at `2^1024` and flushing to
`0` below half the least subnormal `2^-1074`), and the special values
propagate through `*`, `round_ties_even`, `log`, the `as i16` casts and
`format!` by the IEEE-754 rules the source relies on.  As in the header, the
sign of a zero produced by rounding a *nonzero* value is not tracked by
`roundF64` itself (input `-0.0` and the zero products of `fmul` are).
Rust's `powi` is a chain of `f64` multiplications whose exact rounding
sequence is implementation-defined; it is modelled as the correctly rounded
power — in the saturation regimes used by the theorems below (hundreds of
orders of magnitude beyond the representable range) every rounding sequence
produces the same `∞` or `0`. -/

/-- IEEE-754 binary64 round-to-nearest, ties-to-even, of an exact rational:
the result is `±n * 2^e` for the 53-bit significand `n = rte(|q| * 2^(-e))`
with `e = ⌊log2 |q|⌋ - 52` clamped below at `-1074` (the subnormal ulp
exponent); `±∞` once the rounded magnitude reaches `2^1024` (equivalently
`|q| ≥ 2^1024 - 2^970`, the IEEE overflow threshold), and `0` when the
value rounds below the least subnormal. -/
def roundF64 (q : ℚ) : F64 :=
  if q = 0 then F64.fin 0
  else
    let e : ℤ := max (intLogQ 2 |q| - 52) (-1074)
    let n : ℤ := roundTiesEven (|q| * (2:ℚ) ^ (-e))
    if ((2 ^ 1024 : ℕ) : ℚ) ≤ (n : ℚ) * (2:ℚ) ^ e then
      if 0 < q then F64.inf else F64.negInf
    else if n = 0 then F64.fin 0
    else F64.fin ((if 0 < q then (n : ℚ) else -(n : ℚ)) * (2:ℚ) ^ e)

/-- IEEE `f64` equality `==`: `NaN` compares unequal to everything including
itself, and `-0.0 == +0.0`. -/
def feq : F64 → F64 → Bool
  | F64.nan, _ => false
  | _, F64.nan => false
  | F64.inf, F64.inf => true
  | F64.negInf, F64.negInf => true
  | F64.negZero, F64.negZero => true
  | F64.negZero, F64.fin q => decide (q = 0)
  | F64.fin q, F64.negZero => decide (q = 0)
  | F64.fin q, F64.fin r => decide (q = r)
  | _, _ => false

/-- IEEE `f64` multiplication over the carrier: `NaN` propagates,
`±∞ * ±0 = NaN`, infinities and exact zero products follow the sign rule,
and a finite nonzero product is rounded to binary64 by `roundF64` (which may
overflow to `±∞`; the sign of a zero obtained by *underflow* of a nonzero
product is not tracked, cf. the section comment). -/
def fmul : F64 → F64 → F64
  | F64.nan, _ => F64.nan
  | _, F64.nan => F64.nan
  | F64.inf, F64.inf => F64.inf
  | F64.inf, F64.negInf => F64.negInf
  | F64.negInf, F64.inf => F64.negInf
  | F64.negInf, F64.negInf => F64.inf
  | F64.inf, F64.negZero => F64.nan
  | F64.negZero, F64.inf => F64.nan
  | F64.negInf, F64.negZero => F64.nan
  | F64.negZero, F64.negInf => F64.nan
  | F64.inf, F64.fin q =>
    if q = 0 then F64.nan else if 0 < q then F64.inf else F64.negInf
  | F64.fin q, F64.inf =>
    if q = 0 then F64.nan else if 0 < q then F64.inf else F64.negInf
  | F64.negInf, F64.fin q =>
    if q = 0 then F64.nan else if 0 < q then F64.negInf else F64.inf
  | F64.fin q, F64.negInf =>
    if q = 0 then F64.nan else if 0 < q then F64.negInf else F64.inf
  | F64.negZero, F64.negZero => F64.fin 0
  | F64.negZero, F64.fin q => if q < 0 then F64.fin 0 else F64.negZero
  | F64.fin q, F64.negZero => if q < 0 then F64.fin 0 else F64.negZero
  | F64.fin q, F64.fin r =>
    if q * r = 0 ∧ (q < 0 ∨ r < 0) then F64.negZero else roundF64 (q * r)

/-- IEEE `f64::round_ties_even` over the carrier: special values propagate
and a small negative finite value rounds to `-0.0`. -/
def round_ties_evenF : F64 → F64
  | F64.nan => F64.nan
  | F64.inf => F64.inf
  | F64.negInf => F64.negInf
  | F64.negZero => F64.negZero
  | F64.fin q =>
    if roundTiesEven q = 0 ∧ q < 0 then F64.negZero else F64.fin (roundTiesEven q)

/-- `10f64.powi(m)`, the power step of `round_mag`, modelled as the
correctly rounded power `10^m` (see the section comment on `powi`). -/
def powi10 (m : ℤ) : F64 := roundF64 ((10:ℚ) ^ m)

/-- `Round::round_mag` from `src/round.rs` at `f64` fidelity: the zero test
`*self == 0.0` is IEEE `==` (returning `+0.0`), and the two multiplications
saturate, so `powi` overflow/underflow can turn a finite input into `±∞` or
`NaN`. -/
def round_magF (x : F64) (m : ℤ) : F64 :=
  if feq x (F64.fin 0) then F64.fin 0
  else fmul (round_ties_evenF (fmul x (powi10 (-m)))) (powi10 m)

/-- `Round::round_sig` from `src/round.rs` at `f64` fidelity.  For a
non-finite `x` the source still computes
`magnitude = self.abs().log10().floor() as i16`: the float-to-integer `as`
cast saturates, giving `i16::MAX = 32767` for `±∞` and `0` for `NaN`. -/
def round_sigF (x : F64) (significants : ℕ) : F64 :=
  if feq x (F64.fin 0) ∨ significants = 0 then F64.fin 0
  else
    let mag : ℤ :=
      match x with
      | F64.fin q => intLogQ 10 |q|
      | F64.nan => 0
      | _ => 32767
    round_magF x (mag - significants + 1)

/-- The rounding step of `Formatter::format` at `f64` fidelity. -/
def applyRoundingF (r : Rounding) (x : F64) : F64 :=
  match r with
  | .Magnitude p => round_magF x p
  | .SignificantDigits p => round_sigF x p

/-- `f64::is_sign_positive` of the rounded value: `+∞` and `NaN` (the
positive standard `NaN` every arithmetic operation of the source produces)
are sign-positive, `-0.0` and `-∞` are not. -/
def is_sign_positiveF : F64 → Bool
  | F64.nan => true
  | F64.inf => true
  | F64.negInf => false
  | F64.negZero => false
  | F64.fin q => decide (0 ≤ q)

/-- Rust `format!("{:.*}", dp, x)` over the carrier: the precision is
ignored for non-finite values (`"inf"`, `"-inf"`, `"NaN"`), and `-0.0`
prints with a leading minus. -/
def renderFixedF (x : F64) (dp : ℕ) : List Char :=
  match x with
  | F64.nan => ['N', 'a', 'N']
  | F64.inf => ['i', 'n', 'f']
  | F64.negInf => ['-', 'i', 'n', 'f']
  | F64.negZero => '-' :: renderFixed 0 dp
  | F64.fin q => renderFixed q dp

/-- The `dec_places` computation of `Formatter::format` when the rounded
value is non-finite: its magnitude is `∞` (for `±∞`: `log` of the absolute
value) or `NaN` (for `NaN`), so every bucket test
`lower ≤ magnitude ∧ magnitude < upper` fails and the fallback arms run;
there `magnitude.floor() as i16` saturates to `32767` for `∞` and casts to
`0` for `NaN` (Rust float-to-int `as` semantics). -/
def decPlacesNonfin (sc : Scaling) (r : Rounding) (isNaN : Bool) : ℤ :=
  let magCast : ℤ := if isNaN then 0 else 32767
  match sc, r with
  | .Binary _, .Magnitude _ => magCast
  | .Binary _, .SignificantDigits p => (p : ℤ) - 1
  | .Decimal _, .Magnitude _ => magCast
  | .Decimal _, .SignificantDigits p => (p : ℤ) - 1
  | .None, .Magnitude p => -p
  | .None, .SignificantDigits p => -magCast + p - 1
  | .Scientific, .Magnitude _ => magCast
  | .Scientific, .SignificantDigits p => (p : ℤ) - 1

/-- The rendering block when the rounded value is non-finite.  The bucket
search fails, so `Binary`/`Decimal` take the scientific fallback; there the
mantissa `x / b^(x.log…().floor())` is `NaN` (`∞/∞` for `+∞`; `log` of a
negative or `NaN` argument is `NaN`, and any arithmetic on `NaN` stays
`NaN`) and the `{}`-printed exponent is `inf` exactly for `x = +∞`
(`floor(log(∞)) = ∞`) and `NaN` otherwise.  `Scaling::None` prints the
value itself; the precision passed to `format!` is ignored on non-finite
values. -/
def renderScaledNonfin (sc : Scaling) (r : Rounding) (x : F64) : List Char :=
  match sc with
  | .None => renderFixedF x (decPlacesNonfin .None r (decide (x = F64.nan))).toNat
  | .Binary _ =>
    ['N', 'a', 'N', ' ', '*', ' ', '2', '^', '(']
      ++ (if x = F64.inf then ['i', 'n', 'f'] else ['N', 'a', 'N']) ++ [')']
  | .Decimal _ =>
    ['N', 'a', 'N', ' ', '*', ' ', '1', '0', '^', '(']
      ++ (if x = F64.inf then ['i', 'n', 'f'] else ['N', 'a', 'N']) ++ [')']
  | .Scientific =>
    ['N', 'a', 'N', ' ', '*', ' ', '1', '0', '^', '(']
      ++ (if x = F64.inf then ['i', 'n', 'f'] else ['N', 'a', 'N']) ++ [')']

/-- The `match self.scaling` rendering block over the carrier value of the
rounded `x`.  A finite rounded value goes through the exact pipeline
(`renderScaled`); `-0.0` passes the source's `x == 0.0` guard (magnitude
`0`, hence the empty-symbol zero bucket for `Binary`/`Decimal`) and renders
like `0` except for the leading minus `format!` prints for `-0.0` (under
`Scientific` the mantissa is `-0.0 / 0 = NaN` and `log10(-0.0) = -inf`,
exactly as for `+0`); a non-finite rounded value takes
`renderScaledNonfin`. -/
def renderScaledF (sc : Scaling) (r : Rounding) (x : F64) : List Char :=
  match x with
  | F64.fin q => renderScaled sc r q
  | F64.negZero =>
    match sc with
    | .None => renderFixedF F64.negZero (dec_places .None r 0).toNat
    | .Binary ws =>
      -- zero bucket `(0, 10, "")`: empty unit symbol
      trimEnd (renderFixedF F64.negZero (dec_places (.Binary ws) r 0).toNat
        ++ (if ws then [' '] else []) ++ ([] : List Char))
    | .Decimal ws =>
      -- zero bucket `(0, 3, "")`: empty unit symbol
      trimEnd (renderFixedF F64.negZero (dec_places (.Decimal ws) r 0).toNat
        ++ (if ws then [' '] else []) ++ ([] : List Char))
    | .Scientific => sciChars 10 0 (dec_places .Scientific r 0).toNat
  | _ => renderScaledNonfin sc r x

/-- The sign step of `Formatter::format` over the carrier
(`x.is_sign_positive()` of the rounded value). -/
def applySignF (sg : Sign) (x : F64) (s : List Char) : List Char :=
  if sg = Sign.Always ∧ is_sign_positiveF x = true then '+' :: s else s

/-- `Formatter::format` at `f64`-saturation fidelity: identical to
`Formatter.format` except that the rounding step and the pipeline after it
carry the saturating carrier values, so a finite input whose rounding
overflows reaches the non-finite rendering — and, under `Scaling::None`,
the digit-less strings `"inf"`/`"-inf"`/`"NaN"` on which the digit search
of the separator-injection block fails (`none`, the `expect` panic). -/
def formatF (f : Formatter) (x : F64) : Option (List Char) :=
  match x with
  | F64.inf => some ['∞']
  | F64.negInf => some ['-', '∞']
  | F64.nan => some ['N', 'a', 'N']
  | _ =>
    let xr := applyRoundingF f.rounding x
    let s := applySignF f.sign xr (renderScaledF f.scaling f.rounding xr)
    let s1? := if f.group_separator = [] then some s else insertGroupSeps s
    s1?.map fun s1 =>
      replaceAll gsMarker f.group_separator (replaceAll ['.'] f.decimal_separator s1)

/-! ## Lemmas and theorems -/

section Proofs

attribute [local semireducible] Rat.mul Rat.inv Rat.add Rat.sub

theorem natLogF_eq (b : ℕ) : ∀ fuel n, n ≤ fuel → natLogF b fuel n = Nat.log b n := by
  intro fuel
  induction fuel with
  | zero =>
    intro n hn
    have : n = 0 := Nat.le_zero.mp hn
    subst this
    simp [natLogF]
  | succ f ih =>
    intro n hn
    rw [natLogF]
    by_cases h : b ≤ n ∧ 1 < b
    · rw [if_pos h, ih (n / b) ?_, ← Nat.log_of_one_lt_of_le h.2 h.1]
      have : n / b < n := Nat.div_lt_self (by omega) h.2
      omega
    · rw [if_neg h]
      rcases Decidable.not_and_iff_or_not.mp h with h' | h'
      · exact (Nat.log_of_lt (by omega)).symm
      · exact (Nat.log_of_left_le_one (by omega) _).symm

theorem natLog_eq (b n : ℕ) : natLog b n = Nat.log b n :=
  natLogF_eq b n n le_rfl

theorem natClogF_eq (b : ℕ) : ∀ fuel n, n ≤ fuel → natClogF b fuel n = Nat.clog b n := by
  intro fuel
  induction fuel with
  | zero =>
    intro n hn
    have : n = 0 := Nat.le_zero.mp hn
    subst this
    simp [natClogF, Nat.clog_of_right_le_one]
  | succ f ih =>
    intro n hn
    rw [natClogF]
    by_cases h : 1 < b ∧ 1 < n
    · rw [if_pos h, ih ((n + b - 1) / b) ?_, ← Nat.clog_of_two_le h.1 h.2]
      have : (n + b - 1) / b < n := Nat.add_pred_div_lt h.1 h.2
      omega
    · rw [if_neg h]
      rcases Decidable.not_and_iff_or_not.mp h with h' | h'
      · exact (Nat.clog_of_left_le_one (by omega) _).symm
      · exact (Nat.clog_of_right_le_one (by omega) _).symm

theorem natClog_eq (b n : ℕ) : natClog b n = Nat.clog b n :=
  natClogF_eq b n n le_rfl

theorem intLogQ_eq (b : ℕ) (q : ℚ) : intLogQ b q = Int.log b q := by
  unfold intLogQ Int.log
  by_cases h : 1 ≤ q
  · rw [if_pos h, if_pos h, natLog_eq]
  · rw [if_neg h, if_neg h, natClog_eq]

theorem roundTiesEven_intCast (n : ℤ) : roundTiesEven (n : ℚ) = n := by
  unfold roundTiesEven
  rw [Int.floor_intCast, sub_self]
  norm_num

/-- C6 helper: `round_mag` of zero. -/
theorem round_mag_zero (m : ℤ) : round_mag 0 m = 0 := by
  simp [round_mag]

/-- C6 helper: `round_sig` at zero precision and of zero. -/
theorem round_sig_zero (x : ℚ) (n : ℕ) : round_sig x 0 = 0 ∧ round_sig 0 n = 0 := by
  constructor <;> simp [round_sig]

/-- C6: for every finite `x` and every magnitude `m`, rounding to zero
significant digits yields zero (`round_sig x 0 = 0`), rounding zero to any
magnitude yields zero (`round_mag 0 m = 0`), and zero input to `round_sig`
yields zero (`round_sig 0 n = 0`). -/
theorem c6_zero_rounding (x : ℚ) (m : ℤ) (n : ℕ) :
    round_sig x 0 = 0 ∧ round_mag 0 m = 0 ∧ round_sig 0 n = 0 := by
  refine ⟨(round_sig_zero x 0).1, round_mag_zero m, (round_sig_zero x n).2⟩

/-- C1: under the default configuration (4 significant digits, spaced decimal
scaling) rounding happens before the magnitude/prefix bucket is resolved, so
`format(0.1)` crosses the prefix boundary and renders as `"100,0 m"`, not
`"0,1000"`. -/
theorem c1_rounding_before_magnitude :
    Formatter.new.format (F64.fin (1/10)) = some "100,0 m".data ∧
    Formatter.new.format (F64.fin (1/10)) ≠ some "0,1000".data := by
  constructor
  · decide
  · decide

/-- C2 (divergence witness): the source returns from the positive-infinity
branch before the sign step, so under `Sign::Always` it renders `"∞"`, not the
`"+∞"` the claim (and the `set_sign` doctest of `src/lib.rs`) requires.  The
remaining parts of the claim hold: `-∞` and `NaN` render unsigned under both
modes. -/
theorem c2_infinity_sign_divergence :
    (Formatter.new.set_sign .Always).format F64.inf = some "∞".data ∧
    (Formatter.new.set_sign .Always).format F64.inf ≠ some "+∞".data ∧
    Formatter.new.format F64.inf = some "∞".data ∧
    (Formatter.new.set_sign .Always).format F64.negInf = some "-∞".data ∧
    Formatter.new.format F64.negInf = some "-∞".data ∧
    (Formatter.new.set_sign .Always).format F64.nan = some "NaN".data ∧
    Formatter.new.format F64.nan = some "NaN".data := by
  refine ⟨by decide, by decide, by decide, by decide, by decide, by decide, by decide⟩

/-- C4: with `Binary(true)` scaling and the default remaining configuration,
`format(1023)` stays in the empty-prefix bucket and is grouped (`"1.023"`),
while `format(1024)` crosses into the `Ki` bucket (`"1,000 Ki"`). -/
theorem c4_binary_boundary :
    (Formatter.new.set_scaling (.Binary true)).format (F64.fin 1023) = some "1.023".data ∧
    (Formatter.new.set_scaling (.Binary true)).format (F64.fin 1024) = some "1,000 Ki".data := by
  constructor
  · decide
  · decide

/-- C9 (counterexample): under `Scaling::Scientific` a zero input renders as
`"NaN * 10^(-inf)"` (the source takes `log10(0) = -inf` in the scientific
branch), so the output for a zero input can carry a minus sign, refuting the
claim as stated. -/
theorem c9_counterexample :
    (Formatter.new.set_scaling .Scientific).format (F64.fin 0) = some "NaN * 10^(-inf)".data ∧
    '-' ∈ "NaN * 10^(-inf)".data := by
  constructor
  · decide
  · decide

/-! ### Character and digit-string lemmas -/

theorem ne_of_isDigit {c d : Char} (hc : c.isDigit = true) (hd : d.isDigit = false) :
    c ≠ d := by
  intro h
  rw [h, hd] at hc
  exact Bool.noConfusion hc

theorem digitChar_isDigit {d : ℕ} (hd : d < 10) : (digitChar d).isDigit = true := by
  interval_cases d <;> decide

theorem mem_natDigitsF_isDigit :
    ∀ fuel n c, c ∈ natDigitsF fuel n → c.isDigit = true := by
  intro fuel
  induction fuel with
  | zero => intro n c hc; simp [natDigitsF] at hc
  | succ f ih =>
    intro n c hc
    rw [natDigitsF] at hc
    by_cases h : n < 10
    · rw [if_pos h] at hc
      rw [List.mem_singleton.mp hc]
      exact digitChar_isDigit h
    · rw [if_neg h] at hc
      rcases List.mem_append.mp hc with h1 | h2
      · exact ih _ _ h1
      · rw [List.mem_singleton.mp h2]
        exact digitChar_isDigit (Nat.mod_lt _ (by norm_num))

theorem mem_natDigits_isDigit {n : ℕ} {c : Char} (hc : c ∈ natDigits n) :
    c.isDigit = true :=
  mem_natDigitsF_isDigit _ _ _ hc

theorem natDigits_ne_nil (n : ℕ) : natDigits n ≠ [] := by
  unfold natDigits
  rw [natDigitsF]
  by_cases h : n < 10
  · rw [if_pos h]; exact List.cons_ne_nil _ _
  · rw [if_neg h]; exact List.append_ne_nil_of_right_ne_nil _ (List.cons_ne_nil _ _)

theorem mem_intChars {k : ℤ} {c : Char} (hc : c ∈ intChars k) :
    c.isDigit = true ∨ c = '-' := by
  unfold intChars at hc
  by_cases h : k < 0
  · rw [if_pos h] at hc
    rcases List.mem_cons.mp hc with h1 | h1
    · right; exact h1
    · left; exact mem_natDigits_isDigit h1
  · rw [if_neg h] at hc
    left; exact mem_natDigits_isDigit hc

/-! ### `trimEnd` lemmas -/

theorem mem_trimEnd {s : List Char} {c : Char} (hc : c ∈ trimEnd s) : c ∈ s := by
  unfold trimEnd at hc
  rw [List.mem_reverse] at hc
  have := List.dropWhile_subset (l := s.reverse) (p := fun c => c == ' ') hc
  rwa [List.mem_reverse] at this

theorem mem_trimEnd_of_ne_space {s : List Char} {c : Char} (hc : c ∈ s) (hne : c ≠ ' ') :
    c ∈ trimEnd s := by
  unfold trimEnd
  rw [List.mem_reverse]
  have hsplit := List.takeWhile_append_dropWhile (p := fun c => c == ' ') (l := s.reverse)
  have hms : c ∈ s.reverse := List.mem_reverse.mpr hc
  rw [← hsplit] at hms
  rcases List.mem_append.mp hms with h1 | h1
  · have := List.mem_takeWhile_imp h1
    exact absurd (by simpa using this) hne
  · exact h1

theorem trimEnd_of_no_space {s : List Char} (h : ' ' ∉ s) : trimEnd s = s := by
  unfold trimEnd
  cases hrev : s.reverse with
  | nil =>
    have : s = [] := by simpa using congrArg List.reverse hrev
    rw [this]; rfl
  | cons c cs =>
    have hcs : c ∈ s := by
      rw [← List.mem_reverse, hrev]; exact List.mem_cons_self _ _
    have hcf : ((c == ' ') = false) := by
      simp only [beq_eq_false_iff_ne, ne_eq]
      intro h'
      exact h (h' ▸ hcs)
    rw [List.dropWhile_cons, hcf]
    simp only [Bool.false_eq_true, if_false]
    rw [← hrev, List.reverse_reverse]

theorem trimEnd_append_no_space {s t : List Char} (ht : t ≠ []) (h : ' ' ∉ t) :
    trimEnd (s ++ t) = s ++ t := by
  unfold trimEnd
  rw [List.reverse_append]
  cases htr : t.reverse with
  | nil =>
    exact absurd (by simpa using congrArg List.reverse htr) ht
  | cons c cs =>
    have hct : c ∈ t := by
      rw [← List.mem_reverse, htr]; exact List.mem_cons_self _ _
    have hcf : ((c == ' ') = false) := by
      simp only [beq_eq_false_iff_ne, ne_eq]
      intro h'
      exact h (h' ▸ hct)
    rw [List.cons_append, List.dropWhile_cons, hcf]
    simp only [Bool.false_eq_true, if_false]
    rw [← List.cons_append, ← htr, ← List.reverse_append, List.reverse_reverse]

theorem trimEnd_append_space (s : List Char) : trimEnd (s ++ [' ']) = trimEnd s := by
  unfold trimEnd
  rw [List.reverse_append]
  rfl

/-! ### `renderFixed` lemmas -/

theorem mem_renderFixed {x : ℚ} {dp : ℕ} {c : Char} (hc : c ∈ renderFixed x dp) :
    c.isDigit = true ∨ c = '.' ∨ c = '-' := by
  unfold renderFixed at hc
  set n : ℕ := (roundTiesEven (|x| * (10:ℚ) ^ dp)).toNat with hn
  have hds' : ∀ d, d ∈ List.replicate (dp + 1 - (natDigits n).length) '0' ++ natDigits n →
      d.isDigit = true := by
    intro d hd
    rcases List.mem_append.mp hd with h4 | h4
    · rw [List.eq_of_mem_replicate h4]; decide
    · exact mem_natDigits_isDigit h4
  have hbody : ∀ d, d ∈ (if dp = 0 then natDigits n else
      (List.replicate (dp + 1 - (natDigits n).length) '0' ++ natDigits n).take
        ((List.replicate (dp + 1 - (natDigits n).length) '0' ++ natDigits n).length - dp)
      ++ ['.'] ++ (List.replicate (dp + 1 - (natDigits n).length) '0' ++ natDigits n).drop
        ((List.replicate (dp + 1 - (natDigits n).length) '0' ++ natDigits n).length - dp)) →
      d.isDigit = true ∨ d = '.' ∨ d = '-' := by
    intro d hd
    by_cases hdp : dp = 0
    · rw [if_pos hdp] at hd
      exact Or.inl (mem_natDigits_isDigit hd)
    · rw [if_neg hdp] at hd
      rcases List.mem_append.mp hd with h2 | h2
      · rcases List.mem_append.mp h2 with h3 | h3
        · exact Or.inl (hds' d (List.mem_of_mem_take h3))
        · exact Or.inr (Or.inl (List.mem_singleton.mp h3))
      · exact Or.inl (hds' d (List.mem_of_mem_drop h2))
  by_cases hneg : x < 0
  · rw [if_pos hneg] at hc
    rcases List.mem_cons.mp hc with h1 | h1
    · exact Or.inr (Or.inr h1)
    · exact hbody c h1
  · rw [if_neg hneg] at hc
    exact hbody c hc

theorem renderFixed_of_pos (x : ℚ) {dp : ℕ} (hdp : 0 < dp) :
    ∃ A B, renderFixed x dp = A ++ '.' :: B ∧
      (∀ c ∈ A, c.isDigit = true ∨ c = '-') ∧
      (∀ c ∈ B, c.isDigit = true) ∧ B.length = dp ∧
      (∃ a ∈ A, a.isDigit = true) ∧ ('-' ∈ A → x < 0) := by
  unfold renderFixed
  dsimp only []
  set n : ℕ := (roundTiesEven (|x| * (10:ℚ) ^ dp)).toNat with hn
  set ds' : List Char := List.replicate (dp + 1 - (natDigits n).length) '0' ++ natDigits n
    with hds'
  have hdig : ∀ c ∈ ds', c.isDigit = true := by
    intro c hc
    rcases List.mem_append.mp hc with h4 | h4
    · rw [List.eq_of_mem_replicate h4]; decide
    · exact mem_natDigits_isDigit h4
  have hL : dp + 1 ≤ ds'.length := by
    rw [hds', List.length_append, List.length_replicate]
    omega
  have htake : ∀ c ∈ ds'.take (ds'.length - dp), c.isDigit = true :=
    fun c hc => hdig c (List.mem_of_mem_take hc)
  have hdrop : ∀ c ∈ ds'.drop (ds'.length - dp), c.isDigit = true :=
    fun c hc => hdig c (List.mem_of_mem_drop hc)
  have htlen : (ds'.take (ds'.length - dp)).length = ds'.length - dp := by
    rw [List.length_take]
    omega
  have hdlen : (ds'.drop (ds'.length - dp)).length = dp := by
    rw [List.length_drop]
    omega
  have htne : ds'.take (ds'.length - dp) ≠ [] := by
    intro h
    have := congrArg List.length h
    rw [htlen] at this
    simp at this
    omega
  obtain ⟨a, ha⟩ := List.exists_mem_of_ne_nil _ htne
  rw [if_neg (Nat.pos_iff_ne_zero.mp hdp)]
  by_cases hneg : x < 0
  · rw [if_pos hneg]
    refine ⟨'-' :: ds'.take (ds'.length - dp), ds'.drop (ds'.length - dp), ?_, ?_, hdrop,
      hdlen, ⟨a, List.mem_cons_of_mem _ ha, htake a ha⟩, fun _ => hneg⟩
    · simp [List.append_assoc]
    · intro c hc
      rcases List.mem_cons.mp hc with h1 | h1
      · exact Or.inr h1
      · exact Or.inl (htake c h1)
  · rw [if_neg hneg]
    refine ⟨ds'.take (ds'.length - dp), ds'.drop (ds'.length - dp), ?_, ?_, hdrop,
      hdlen, ⟨a, ha, htake a ha⟩, ?_⟩
    · simp [List.append_assoc]
    · intro c hc
      exact Or.inl (htake c hc)
    · intro hmem
      have := htake _ hmem
      exact absurd this (by decide)

theorem renderFixed_of_zero (x : ℚ) :
    (∀ c ∈ renderFixed x 0, c.isDigit = true ∨ c = '-') ∧
      (∃ a ∈ renderFixed x 0, a.isDigit = true) ∧
      ('-' ∈ renderFixed x 0 → x < 0) := by
  unfold renderFixed
  dsimp only []
  set n : ℕ := (roundTiesEven (|x| * (10:ℚ) ^ (0:ℕ))).toNat with hn
  obtain ⟨a, ha⟩ := List.exists_mem_of_ne_nil _ (natDigits_ne_nil n)
  by_cases hneg : x < 0
  · rw [if_pos hneg]
    refine ⟨?_, ⟨a, List.mem_cons_of_mem _ ha, mem_natDigits_isDigit ha⟩, fun _ => hneg⟩
    intro c hc
    rcases List.mem_cons.mp hc with h1 | h1
    · exact Or.inr h1
    · exact Or.inl (mem_natDigits_isDigit h1)
  · rw [if_neg hneg]
    refine ⟨fun c hc => Or.inl (mem_natDigits_isDigit hc),
      ⟨a, ha, mem_natDigits_isDigit ha⟩, ?_⟩
    intro hmem
    exact absurd (mem_natDigits_isDigit hmem) (by decide)

theorem renderFixed_exists_digit (x : ℚ) (dp : ℕ) :
    ∃ a ∈ renderFixed x dp, a.isDigit = true := by
  by_cases hdp : 0 < dp
  · obtain ⟨A, B, hAB, _, _, _, ⟨a, haA, had⟩, _⟩ := renderFixed_of_pos x hdp
    exact ⟨a, by rw [hAB]; exact List.mem_append_left _ haA, had⟩
  · have h0 : dp = 0 := by omega
    subst h0
    exact (renderFixed_of_zero x).2.1

theorem renderFixed_no_minus {x : ℚ} (hx : 0 ≤ x) (dp : ℕ) : '-' ∉ renderFixed x dp := by
  intro hmem
  by_cases hdp : 0 < dp
  · obtain ⟨A, B, hAB, _, hB, _, _, hsgn⟩ := renderFixed_of_pos x hdp
    rw [hAB] at hmem
    rcases List.mem_append.mp hmem with h1 | h1
    · exact absurd (hsgn h1) (not_lt.mpr hx)
    · rcases List.mem_cons.mp h1 with h2 | h2
      · exact absurd h2 (by decide)
      · exact absurd (hB _ h2) (by decide)
  · have h0 : dp = 0 := by omega
    subst h0
    exact absurd ((renderFixed_of_zero x).2.2 hmem) (not_lt.mpr hx)

theorem renderFixed_zero_no_dot (x : ℚ) : '.' ∉ renderFixed x 0 := by
  intro hmem
  rcases (renderFixed_of_zero x).1 _ hmem with h1 | h1
  · exact absurd h1 (by decide)
  · exact absurd h1 (by decide)

/-! ### `fracDigitCount` lemmas -/

theorem fracDigitCount_append_of_no_dot {s : List Char} (h : '.' ∉ s) (t : List Char) :
    fracDigitCount (s ++ t) = fracDigitCount t := by
  induction s with
  | nil => rfl
  | cons c cs ih =>
    rw [List.cons_append, fracDigitCount]
    rw [if_neg (fun hce => h (by rw [hce]; exact List.mem_cons_self _ _))]
    exact ih fun hm => h (List.mem_cons_of_mem _ hm)

theorem fracDigitCount_eq_none {s : List Char} (h : '.' ∉ s) : fracDigitCount s = none := by
  have := fracDigitCount_append_of_no_dot h []
  rwa [List.append_nil] at this

theorem fracDigitCount_dot_digits {B t : List Char} (hB : ∀ c ∈ B, c.isDigit = true)
    (ht : ∀ c, t.head? = some c → c.isDigit = false) :
    fracDigitCount ('.' :: (B ++ t)) = some B.length := by
  rw [fracDigitCount, if_pos rfl]
  congr 1
  rw [List.takeWhile_append_of_pos hB]
  cases t with
  | nil => simp
  | cons a as =>
    have hf : a.isDigit = false := ht a rfl
    rw [List.takeWhile_cons, hf]
    simp

theorem fracDigitCount_renderFixed_append {x : ℚ} {dp : ℕ} (hdp : 0 < dp) {t : List Char}
    (ht : ∀ c, t.head? = some c → c.isDigit = false) :
    fracDigitCount (renderFixed x dp ++ t) = some dp := by
  obtain ⟨A, B, hAB, hA, hB, hlen, _, _⟩ := renderFixed_of_pos x hdp
  have hAdot : '.' ∉ A := by
    intro hmem
    rcases hA _ hmem with h1 | h1
    · exact absurd h1 (by decide)
    · exact absurd h1 (by decide)
  rw [hAB, List.append_assoc, List.cons_append,
    fracDigitCount_append_of_no_dot hAdot, ← List.cons_append,
    show ('.' :: B) ++ t = '.' :: (B ++ t) from rfl,
    fracDigitCount_dot_digits hB ht, hlen]

/-! ### `replaceAll` lemmas -/

theorem mem_repAux {pat rep : List Char} :
    ∀ {s : List Char} {k : ℕ} {c : Char}, c ∈ repAux pat rep k s → c ∈ s ∨ c ∈ rep := by
  intro s
  induction s with
  | nil => intro k c hc; simp [repAux] at hc
  | cons a as ih =>
    intro k c hc
    match k with
    | k'+1 =>
      rw [repAux] at hc
      rcases ih hc with h1 | h1
      · exact Or.inl (List.mem_cons_of_mem _ h1)
      · exact Or.inr h1
    | 0 =>
      rw [repAux] at hc
      by_cases hp : pat.isPrefixOf (a :: as)
      · rw [if_pos hp] at hc
        rcases List.mem_append.mp hc with h1 | h1
        · exact Or.inr h1
        · rcases ih h1 with h2 | h2
          · exact Or.inl (List.mem_cons_of_mem _ h2)
          · exact Or.inr h2
      · rw [if_neg hp] at hc
        rcases List.mem_cons.mp hc with h1 | h1
        · exact Or.inl (h1 ▸ List.mem_cons_self _ _)
        · rcases ih h1 with h2 | h2
          · exact Or.inl (List.mem_cons_of_mem _ h2)
          · exact Or.inr h2

theorem mem_replaceAll {pat rep s : List Char} {c : Char} (hc : c ∈ replaceAll pat rep s) :
    c ∈ s ∨ c ∈ rep :=
  mem_repAux hc

theorem isPrefixOf_map {g : Char → Char} (hg : Function.Injective g) :
    ∀ (pat s : List Char), (pat.map g).isPrefixOf (s.map g) = pat.isPrefixOf s := by
  intro pat
  induction pat with
  | nil => intro s; simp
  | cons p ps ih =>
    intro s
    cases s with
    | nil => simp
    | cons a as =>
      rw [List.map_cons, List.map_cons, List.isPrefixOf_cons₂, List.isPrefixOf_cons₂, ih]
      have hba : (g p == g a) = (p == a) := by
        by_cases h : p = a
        · simp [h]
        · have h2 : g p ≠ g a := hg.ne_iff.mpr h
          simp [h, h2]
      rw [hba]

theorem repAux_map {g : Char → Char} (hg : Function.Injective g) (pat rep : List Char) :
    ∀ (s : List Char) (k : ℕ),
      (repAux pat rep k s).map g = repAux (pat.map g) (rep.map g) k (s.map g) := by
  intro s
  induction s with
  | nil => intro k; simp [repAux]
  | cons a as ih =>
    intro k
    match k with
    | k'+1 =>
      rw [List.map_cons, repAux, repAux]
      exact ih k'
    | 0 =>
      rw [List.map_cons, repAux, repAux]
      rw [← List.map_cons, isPrefixOf_map hg]
      by_cases hp : pat.isPrefixOf (a :: as)
      · rw [if_pos hp, if_pos hp, List.map_append, ih, List.length_map]
      · rw [if_neg hp, if_neg hp, List.map_cons, ih]

theorem replaceAll_map {g : Char → Char} (hg : Function.Injective g) (pat rep s : List Char) :
    (replaceAll pat rep s).map g = replaceAll (pat.map g) (rep.map g) (s.map g) :=
  repAux_map hg pat rep s 0

theorem replaceAll_single (a b : Char) :
    ∀ s : List Char, replaceAll [a] [b] s = s.map fun c => if c = a then b else c := by
  intro s
  induction s with
  | nil => rfl
  | cons c cs ih =>
    unfold replaceAll at ih ⊢
    rw [repAux, List.map_cons]
    by_cases hp : [a].isPrefixOf (c :: cs)
    · have hac : a = c := by
        rw [List.isPrefixOf_cons₂] at hp
        simpa using (Bool.and_eq_true _ _ |>.mp hp).1
      rw [if_pos hp, if_pos hac.symm]
      simpa using ih
    · have hac : ¬(c = a) := by
        intro h
        exact hp (by rw [List.isPrefixOf_cons₂, h]; simp [List.isPrefixOf])
      rw [if_neg hp, if_neg hac, ih]

theorem replaceAll_not_head {p0 : Char} {pr rep : List Char} :
    ∀ s : List Char, p0 ∉ s → replaceAll (p0 :: pr) rep s = s := by
  intro s
  induction s with
  | nil => intro _; rfl
  | cons a as ih =>
    intro h
    unfold replaceAll at ih ⊢
    rw [repAux]
    have hne : ¬(p0 :: pr).isPrefixOf (a :: as) := by
      rw [List.isPrefixOf_cons₂]
      simp only [Bool.and_eq_true, beq_iff_eq]
      rintro ⟨h1, -⟩
      exact h (h1 ▸ List.mem_cons_self _ _)
    rw [if_neg hne, ih fun hm => h (List.mem_cons_of_mem _ hm)]

/-! ### `groupLoop` and `insertGroupSeps` lemmas -/

theorem mem_groupLoopF {e : ℕ} :
    ∀ (fuel i : ℕ) (s : List Char) (c : Char),
      c ∈ groupLoopF e fuel i s → c ∈ s ∨ c ∈ gsMarker := by
  intro fuel
  induction fuel with
  | zero => intro i s c hc; exact Or.inl hc
  | succ f ih =>
    intro i s c hc
    rw [groupLoopF] at hc
    by_cases hcond : e + 3 ≤ i
    · rw [if_pos hcond] at hc
      rcases ih _ _ _ hc with h1 | h1
      · rcases List.mem_append.mp h1 with h2 | h2
        · rcases List.mem_append.mp h2 with h3 | h3
          · exact Or.inl (List.mem_of_mem_take h3)
          · exact Or.inr h3
        · exact Or.inl (List.mem_of_mem_drop h2)
      · exact Or.inr h1
    · rw [if_neg hcond] at hc
      exact Or.inl hc

theorem insertGroupSeps_of_any_digit {s : List Char} (h : s.any (fun c => c.isDigit) = true) :
    ∃ t, insertGroupSeps s = some t ∧ ∀ c ∈ t, c ∈ s ∨ c ∈ gsMarker := by
  unfold insertGroupSeps
  have h1 : (s.findIdx? fun c => c.isDigit).isSome = true := by
    rw [List.findIdx?_isSome]; exact h
  obtain ⟨fd, hfd⟩ := Option.isSome_iff_exists.mp h1
  rw [hfd]
  cases hdot : s.findIdx? (fun c => c == '.') with
  | some j => exact ⟨_, rfl, fun c hc => mem_groupLoopF _ _ _ _ hc⟩
  | none =>
    have h2 : (s.reverse.findIdx? fun c => c.isDigit).isSome = true := by
      rw [List.findIdx?_isSome, List.any_reverse]; exact h
    obtain ⟨rp, hrp⟩ := Option.isSome_iff_exists.mp h2
    rw [hrp]
    exact ⟨_, rfl, fun c hc => mem_groupLoopF _ _ _ _ hc⟩

/-! ### Prefix-table lemmas -/

theorem findUnit_mem {m : ℤ} :
    ∀ {l : List (ℤ × ℤ × List Char)} {u}, findUnit m l = some u → u ∈ l := by
  intro l
  induction l with
  | nil => intro u h; exact absurd h (by simp [findUnit])
  | cons v vs ih =>
    intro u h
    rw [findUnit] at h
    by_cases hc : v.1 ≤ m ∧ m < v.2.1
    · rw [if_pos hc] at h
      exact (Option.some_inj.mp h) ▸ List.mem_cons_self _ _
    · rw [if_neg hc] at h
      exact List.mem_cons_of_mem _ (ih h)

theorem findUnit_eq_none {m : ℤ} :
    ∀ {l : List (ℤ × ℤ × List Char)}, (∀ u ∈ l, ¬(u.1 ≤ m ∧ m < u.2.1)) →
      findUnit m l = none := by
  intro l
  induction l with
  | nil => intro _; rfl
  | cons v vs ih =>
    intro h
    rw [findUnit, if_neg (h v (List.mem_cons_self _ _))]
    exact ih fun u hu => h u (List.mem_cons_of_mem _ hu)

/-- The unit symbols of both tables contain no digit, no separator glyph, no
sign, no space and no brace character. -/
theorem table_symbols_ok :
    ∀ u ∈ BINARY_PREFIXES ++ DECIMAL_PREFIXES, ∀ c ∈ u.2.2,
      c.isDigit = false ∧ c ≠ ',' ∧ c ≠ '.' ∧ c ≠ '-' ∧ c ≠ ' ' ∧ c ≠ Char.ofNat 123 := by
  decide

/-! ### Branch-unfolding equations for `renderScaled` -/

theorem renderScaled_none_eq (r : Rounding) (x : ℚ) :
    renderScaled Scaling.None r x = renderFixed x (dec_places Scaling.None r x).toNat := rfl

theorem renderScaled_sci_eq (r : Rounding) (x : ℚ) :
    renderScaled Scaling.Scientific r x =
      sciChars 10 x (dec_places Scaling.Scientific r x).toNat := rfl

theorem renderScaled_binary_some (ws : Bool) (r : Rounding) (x : ℚ) {u}
    (h : findUnit (magFloor (Scaling.Binary ws) x) BINARY_PREFIXES = some u) :
    renderScaled (Scaling.Binary ws) r x =
      trimEnd (renderFixed (x / (2:ℚ) ^ (10 * (magFloor (Scaling.Binary ws) x / 10)))
          (dec_places (Scaling.Binary ws) r x).toNat
        ++ (if ws then [' '] else []) ++ u.2.2) := by
  unfold renderScaled
  rw [h]

theorem renderScaled_binary_none (ws : Bool) (r : Rounding) (x : ℚ)
    (h : findUnit (magFloor (Scaling.Binary ws) x) BINARY_PREFIXES = none) :
    renderScaled (Scaling.Binary ws) r x =
      sciChars 2 x (dec_places (Scaling.Binary ws) r x).toNat := by
  unfold renderScaled
  rw [h]

theorem renderScaled_decimal_some (ws : Bool) (r : Rounding) (x : ℚ) {u}
    (h : findUnit (magFloor (Scaling.Decimal ws) x) DECIMAL_PREFIXES = some u) :
    renderScaled (Scaling.Decimal ws) r x =
      trimEnd (renderFixed (x / (10:ℚ) ^ (3 * (magFloor (Scaling.Decimal ws) x / 3)))
          (dec_places (Scaling.Decimal ws) r x).toNat
        ++ (if ws then [' '] else []) ++ u.2.2) := by
  unfold renderScaled
  rw [h]

theorem renderScaled_decimal_none (ws : Bool) (r : Rounding) (x : ℚ)
    (h : findUnit (magFloor (Scaling.Decimal ws) x) DECIMAL_PREFIXES = none) :
    renderScaled (Scaling.Decimal ws) r x =
      sciChars 10 x (dec_places (Scaling.Decimal ws) r x).toNat := by
  unfold renderScaled
  rw [h]

/-! ### `sciChars` lemmas -/

theorem sciChars_no_comma (b : ℕ) (x : ℚ) (dp : ℕ) : ',' ∉ sciChars b x dp := by
  intro h
  unfold sciChars at h
  by_cases hx : 0 < x
  · rw [if_pos hx] at h
    simp only [List.mem_append] at h
    rcases h with ((((h | h) | h) | h) | h) | h
    · rcases mem_renderFixed h with h1 | h1 | h1 <;> exact absurd h1 (by decide)
    · exact absurd h (by decide)
    · exact absurd (mem_natDigits_isDigit h) (by decide)
    · exact absurd h (by decide)
    · rcases mem_intChars h with h1 | h1 <;> exact absurd h1 (by decide)
    · exact absurd h (by decide)
  · rw [if_neg hx] at h
    by_cases hx0 : x = 0
    · rw [if_pos hx0] at h
      simp only [List.mem_append] at h
      rcases h with (h | h) | h
      · exact absurd h (by decide)
      · exact absurd (mem_natDigits_isDigit h) (by decide)
      · exact absurd h (by decide)
    · rw [if_neg hx0] at h
      simp only [List.mem_append] at h
      rcases h with (h | h) | h
      · exact absurd h (by decide)
      · exact absurd (mem_natDigits_isDigit h) (by decide)
      · exact absurd h (by decide)

theorem sciChars_exists_digit (b : ℕ) (x : ℚ) (dp : ℕ) :
    ∃ c ∈ sciChars b x dp, c.isDigit = true := by
  unfold sciChars
  obtain ⟨a, ha, had⟩ := List.exists_mem_of_ne_nil _ (natDigits_ne_nil b) |>.imp
    fun a ha => And.intro ha (mem_natDigits_isDigit ha)
  by_cases hx : 0 < x
  · rw [if_pos hx]
    obtain ⟨d, hd, hdd⟩ := renderFixed_exists_digit (x / (b:ℚ) ^ intLogQ b x) dp
    refine ⟨d, ?_, hdd⟩
    simp only [List.mem_append]
    tauto
  · rw [if_neg hx]
    by_cases hx0 : x = 0
    · rw [if_pos hx0]
      refine ⟨a, ?_, had⟩
      simp only [List.mem_append]
      tauto
    · rw [if_neg hx0]
      refine ⟨a, ?_, had⟩
      simp only [List.mem_append]
      tauto

theorem fracDigitCount_sciChars (b : ℕ) {x : ℚ} (hx : 0 < x) (dp : ℕ) :
    fracDigitCount (sciChars b x dp) = if 0 < dp then some dp else none := by
  unfold sciChars
  rw [if_pos hx]
  by_cases hdp : 0 < dp
  · rw [if_pos hdp]
    simp only [List.append_assoc]
    apply fracDigitCount_renderFixed_append hdp
    intro c hc
    simp only [List.cons_append, List.head?_cons, Option.some.injEq] at hc
    rw [← hc]
    decide
  · rw [if_neg hdp]
    have h0 : dp = 0 := by omega
    subst h0
    apply fracDigitCount_eq_none
    intro hdot
    simp only [List.mem_append] at hdot
    rcases hdot with ((((h | h) | h) | h) | h) | h
    · exact renderFixed_zero_no_dot _ h
    · exact absurd h (by decide)
    · exact absurd (mem_natDigits_isDigit h) (by decide)
    · exact absurd h (by decide)
    · rcases mem_intChars h with h1 | h1 <;> exact absurd h1 (by decide)
    · exact absurd h (by decide)

/-! ### `renderScaled` invariants -/

theorem fracDigitCount_unitBranch (y : ℚ) (dp : ℕ) (ws : Bool) {sym : List Char}
    (hsym : ∀ c ∈ sym, c.isDigit = false ∧ c ≠ ' ' ∧ c ≠ '.') :
    fracDigitCount (trimEnd (renderFixed y dp ++ (if ws then [' '] else []) ++ sym)) =
      if 0 < dp then some dp else none := by
  have hrfns : ' ' ∉ renderFixed y dp := by
    intro hmem
    rcases mem_renderFixed hmem with h1 | h1 | h1 <;> exact absurd h1 (by decide)
  have hrfnd0 : dp = 0 → '.' ∉ renderFixed y dp := fun h0 => h0 ▸ renderFixed_zero_no_dot y
  have main : ∀ t : List Char, (∀ c, t.head? = some c → c.isDigit = false) → ('.' ∉ t) →
      fracDigitCount (renderFixed y dp ++ t) = if 0 < dp then some dp else none := by
    intro t ht htd
    by_cases hdp : 0 < dp
    · rw [if_pos hdp]
      exact fracDigitCount_renderFixed_append hdp ht
    · rw [if_neg hdp]
      have h0 : dp = 0 := by omega
      apply fracDigitCount_eq_none
      intro hdot
      rcases List.mem_append.mp hdot with h1 | h1
      · exact hrfnd0 h0 h1
      · exact htd h1
  cases sym with
  | nil =>
    cases ws with
    | true =>
      rw [show (renderFixed y dp ++ (if true then [' '] else []) ++ ([] : List Char))
          = renderFixed y dp ++ [' '] by simp]
      rw [trimEnd_append_space, trimEnd_of_no_space hrfns]
      have := main [] (fun c hc => nomatch hc) (by simp)
      simpa using this
    | false =>
      rw [show (renderFixed y dp ++ (if false then [' '] else []) ++ ([] : List Char))
          = renderFixed y dp by simp]
      rw [trimEnd_of_no_space hrfns]
      have := main [] (fun c hc => nomatch hc) (by simp)
      simpa using this
  | cons c0 cs =>
    have hne : (c0 :: cs) ≠ [] := List.cons_ne_nil _ _
    have hns : ' ' ∉ (c0 :: cs) := fun hmem => (hsym _ hmem).2.1 rfl
    rw [trimEnd_append_no_space hne hns, List.append_assoc]
    apply main
    · intro c hc
      cases ws with
      | true =>
        rw [if_pos rfl] at hc
        simp only [List.cons_append, List.head?_cons, Option.some.injEq] at hc
        rw [← hc]; decide
      | false =>
        rw [if_neg (by decide)] at hc
        simp only [List.nil_append, List.head?_cons, Option.some.injEq] at hc
        rw [← hc]
        exact (hsym c0 (List.mem_cons_self _ _)).1
    · intro hmem
      rcases List.mem_append.mp hmem with h1 | h1
      · cases ws with
        | true => exact absurd (List.mem_singleton.mp h1) (by decide)
        | false => simp at h1
      · exact (hsym _ h1).2.2 rfl

theorem fracDigitCount_renderFixed (x : ℚ) (dp : ℕ) :
    fracDigitCount (renderFixed x dp) = if 0 < dp then some dp else none := by
  by_cases hdp : 0 < dp
  · rw [if_pos hdp]
    have := fracDigitCount_renderFixed_append (x := x) hdp (t := []) fun c hc => nomatch hc
    simpa using this
  · rw [if_neg hdp]
    have h0 : dp = 0 := by omega
    subst h0
    exact fracDigitCount_eq_none (renderFixed_zero_no_dot x)

theorem renderScaled_no_comma (sc : Scaling) (r : Rounding) (x : ℚ) :
    ',' ∉ renderScaled sc r x := by
  intro h
  cases sc with
  | None =>
    rw [renderScaled_none_eq] at h
    rcases mem_renderFixed h with h1 | h1 | h1 <;> exact absurd h1 (by decide)
  | Binary ws =>
    cases hf : findUnit (magFloor (Scaling.Binary ws) x) BINARY_PREFIXES with
    | some u =>
      rw [renderScaled_binary_some ws r x hf] at h
      have h2 := mem_trimEnd h
      rcases List.mem_append.mp h2 with h3 | h3
      · rcases List.mem_append.mp h3 with h4 | h4
        · rcases mem_renderFixed h4 with h5 | h5 | h5 <;> exact absurd h5 (by decide)
        · cases ws with
          | true => exact absurd (List.mem_singleton.mp h4) (by decide)
          | false => simp at h4
      · exact (table_symbols_ok u (List.mem_append_left _ (findUnit_mem hf)) ',' h3).2.1 rfl
    | none =>
      rw [renderScaled_binary_none ws r x hf] at h
      exact sciChars_no_comma _ _ _ h
  | Decimal ws =>
    cases hf : findUnit (magFloor (Scaling.Decimal ws) x) DECIMAL_PREFIXES with
    | some u =>
      rw [renderScaled_decimal_some ws r x hf] at h
      have h2 := mem_trimEnd h
      rcases List.mem_append.mp h2 with h3 | h3
      · rcases List.mem_append.mp h3 with h4 | h4
        · rcases mem_renderFixed h4 with h5 | h5 | h5 <;> exact absurd h5 (by decide)
        · cases ws with
          | true => exact absurd (List.mem_singleton.mp h4) (by decide)
          | false => simp at h4
      · exact (table_symbols_ok u (List.mem_append_right _ (findUnit_mem hf)) ',' h3).2.1 rfl
    | none =>
      rw [renderScaled_decimal_none ws r x hf] at h
      exact sciChars_no_comma _ _ _ h
  | Scientific =>
    rw [renderScaled_sci_eq] at h
    exact sciChars_no_comma _ _ _ h

theorem renderScaled_exists_digit (sc : Scaling) (r : Rounding) (x : ℚ) :
    ∃ c ∈ renderScaled sc r x, c.isDigit = true := by
  cases sc with
  | None =>
    rw [renderScaled_none_eq]
    exact renderFixed_exists_digit _ _
  | Binary ws =>
    cases hf : findUnit (magFloor (Scaling.Binary ws) x) BINARY_PREFIXES with
    | some u =>
      rw [renderScaled_binary_some ws r x hf]
      obtain ⟨d, hd, hdd⟩ := renderFixed_exists_digit
        (x / (2:ℚ) ^ (10 * (magFloor (Scaling.Binary ws) x / 10)))
        (dec_places (Scaling.Binary ws) r x).toNat
      refine ⟨d, ?_, hdd⟩
      exact mem_trimEnd_of_ne_space
        (List.mem_append_left _ (List.mem_append_left _ hd))
        (ne_of_isDigit hdd (by decide))
    | none =>
      rw [renderScaled_binary_none ws r x hf]
      exact sciChars_exists_digit _ _ _
  | Decimal ws =>
    cases hf : findUnit (magFloor (Scaling.Decimal ws) x) DECIMAL_PREFIXES with
    | some u =>
      rw [renderScaled_decimal_some ws r x hf]
      obtain ⟨d, hd, hdd⟩ := renderFixed_exists_digit
        (x / (10:ℚ) ^ (3 * (magFloor (Scaling.Decimal ws) x / 3)))
        (dec_places (Scaling.Decimal ws) r x).toNat
      refine ⟨d, ?_, hdd⟩
      exact mem_trimEnd_of_ne_space
        (List.mem_append_left _ (List.mem_append_left _ hd))
        (ne_of_isDigit hdd (by decide))
    | none =>
      rw [renderScaled_decimal_none ws r x hf]
      exact sciChars_exists_digit _ _ _
  | Scientific =>
    rw [renderScaled_sci_eq]
    exact sciChars_exists_digit _ _ _

theorem fracDigitCount_renderScaled (sc : Scaling) (r : Rounding) {x : ℚ} (hx : 0 < x) :
    fracDigitCount (renderScaled sc r x) =
      if 0 < (dec_places sc r x).toNat then some (dec_places sc r x).toNat else none := by
  cases sc with
  | None =>
    rw [renderScaled_none_eq]
    exact fracDigitCount_renderFixed _ _
  | Binary ws =>
    cases hf : findUnit (magFloor (Scaling.Binary ws) x) BINARY_PREFIXES with
    | some u =>
      rw [renderScaled_binary_some ws r x hf]
      exact fracDigitCount_unitBranch _ _ _ fun c hc =>
        have h := table_symbols_ok u (List.mem_append_left _ (findUnit_mem hf)) c hc
        ⟨h.1, h.2.2.2.2.1, h.2.2.1⟩
    | none =>
      rw [renderScaled_binary_none ws r x hf]
      exact fracDigitCount_sciChars 2 hx _
  | Decimal ws =>
    cases hf : findUnit (magFloor (Scaling.Decimal ws) x) DECIMAL_PREFIXES with
    | some u =>
      rw [renderScaled_decimal_some ws r x hf]
      exact fracDigitCount_unitBranch _ _ _ fun c hc =>
        have h := table_symbols_ok u (List.mem_append_right _ (findUnit_mem hf)) c hc
        ⟨h.1, h.2.2.2.2.1, h.2.2.1⟩
    | none =>
      rw [renderScaled_decimal_none ws r x hf]
      exact fracDigitCount_sciChars 10 hx _
  | Scientific =>
    rw [renderScaled_sci_eq]
    exact fracDigitCount_sciChars 10 hx _

theorem magFloor_zero (sc : Scaling) : magFloor sc 0 = 0 := by
  unfold magFloor
  exact if_pos rfl

theorem renderScaled_zero_no_minus (sc : Scaling) (r : Rounding)
    (hsc : sc ≠ Scaling.Scientific) : '-' ∉ renderScaled sc r 0 := by
  intro h
  cases sc with
  | None =>
    rw [renderScaled_none_eq] at h
    exact renderFixed_no_minus le_rfl _ h
  | Binary ws =>
    have hfb : findUnit (magFloor (Scaling.Binary ws) 0) BINARY_PREFIXES
        = some ((0:ℤ), (10:ℤ), ([] : List Char)) := by
      rw [magFloor_zero]
      decide
    rw [renderScaled_binary_some ws r 0 hfb] at h
    have h2 := mem_trimEnd h
    rcases List.mem_append.mp h2 with h3 | h3
    · rcases List.mem_append.mp h3 with h4 | h4
      · exact renderFixed_no_minus (le_of_eq (zero_div _).symm) _ h4
      · cases ws with
        | true => exact absurd (List.mem_singleton.mp h4) (by decide)
        | false => simp at h4
    · simp at h3
  | Decimal ws =>
    have hfd : findUnit (magFloor (Scaling.Decimal ws) 0) DECIMAL_PREFIXES
        = some ((0:ℤ), (3:ℤ), ([] : List Char)) := by
      rw [magFloor_zero]
      decide
    rw [renderScaled_decimal_some ws r 0 hfd] at h
    have h2 := mem_trimEnd h
    rcases List.mem_append.mp h2 with h3 | h3
    · rcases List.mem_append.mp h3 with h4 | h4
      · exact renderFixed_no_minus (le_of_eq (zero_div _).symm) _ h4
      · cases ws with
        | true => exact absurd (List.mem_singleton.mp h4) (by decide)
        | false => simp at h4
    · simp at h3
  | Scientific => exact absurd rfl hsc

/-! ### `Formatter.format` plumbing -/

theorem format_fin (f : Formatter) (q : ℚ) : f.format (F64.fin q) = formatFinite f q := rfl

theorem format_negZero (f : Formatter) : f.format F64.negZero = formatFinite f 0 := rfl

theorem formatFinite_eq (f : Formatter) (x0 : ℚ) :
    formatFinite f x0 =
      (if f.group_separator = []
        then some (applySign f.sign (applyRounding f.rounding x0)
          (renderScaled f.scaling f.rounding (applyRounding f.rounding x0)))
        else insertGroupSeps (applySign f.sign (applyRounding f.rounding x0)
          (renderScaled f.scaling f.rounding (applyRounding f.rounding x0)))).map
      fun s1 => replaceAll gsMarker f.group_separator
        (replaceAll ['.'] f.decimal_separator s1) := rfl

theorem mem_applySign {sg : Sign} {x : ℚ} {s : List Char} {c : Char}
    (hc : c ∈ applySign sg x s) : c ∈ s ∨ c = '+' := by
  unfold applySign at hc
  by_cases h : sg = Sign.Always ∧ 0 ≤ x
  · rw [if_pos h] at hc
    rcases List.mem_cons.mp hc with h1 | h1
    · exact Or.inr h1
    · exact Or.inl h1
  · rw [if_neg h] at hc
    exact Or.inl hc

theorem mem_applySign_of_mem {sg : Sign} {x : ℚ} {s : List Char} {c : Char} (hc : c ∈ s) :
    c ∈ applySign sg x s := by
  unfold applySign
  by_cases h : sg = Sign.Always ∧ 0 ≤ x
  · rw [if_pos h]; exact List.mem_cons_of_mem _ hc
  · rw [if_neg h]; exact hc

theorem mem_of_insertGroupSeps {s t : List Char} (h : insertGroupSeps s = some t) {c : Char}
    (hc : c ∈ t) : c ∈ s ∨ c ∈ gsMarker := by
  unfold insertGroupSeps at h
  cases h1 : s.findIdx? (fun c => c.isDigit) with
  | none => rw [h1] at h; exact absurd h (by simp)
  | some fd =>
    rw [h1] at h
    cases h2 : s.findIdx? (fun c => c == '.') with
    | some j =>
      rw [h2] at h
      rw [← Option.some_inj.mp h] at hc
      exact mem_groupLoopF _ _ _ _ hc
    | none =>
      rw [h2] at h
      cases h3 : s.reverse.findIdx? (fun c => c.isDigit) with
      | none => rw [h3] at h; exact absurd h (by simp)
      | some rp =>
        rw [h3] at h
        rw [← Option.some_inj.mp h] at hc
        exact mem_groupLoopF _ _ _ _ hc

theorem mem_postSeparators {d g s1 : List Char} {c : Char}
    (hc : c ∈ replaceAll gsMarker g (replaceAll ['.'] d s1)) :
    c ∈ s1 ∨ c ∈ d ∨ c ∈ g := by
  rcases mem_replaceAll hc with h1 | h1
  · rcases mem_replaceAll h1 with h2 | h2
    · exact Or.inl h2
    · exact Or.inr (Or.inl h2)
  · exact Or.inr (Or.inr h1)

theorem formatFinite_isSome (f : Formatter) (x0 : ℚ) :
    (formatFinite f x0).isSome = true := by
  rw [formatFinite_eq]
  by_cases hg : f.group_separator = []
  · rw [if_pos hg]; rfl
  · rw [if_neg hg]
    obtain ⟨c, hc, hcd⟩ :=
      renderScaled_exists_digit f.scaling f.rounding (applyRounding f.rounding x0)
    have hany : (applySign f.sign (applyRounding f.rounding x0)
        (renderScaled f.scaling f.rounding (applyRounding f.rounding x0))).any
          (fun c => c.isDigit) = true :=
      List.any_eq_true.mpr ⟨c, mem_applySign_of_mem hc, hcd⟩
    obtain ⟨t, ht, -⟩ := insertGroupSeps_of_any_digit hany
    rw [ht]
    rfl

/-- In the exact-arithmetic model (where rounding a finite value is always
finite) the digit-search `expect` branches of the separator-injection block
are unreachable: `Formatter.format` returns a string for every input and
every configuration.  See `c10_amended`/`c10_counterexample` below for the
`f64`-saturation refinement, where this holds only while the rounded value
stays finite. -/
theorem format_isSome (f : Formatter) (x : F64) : (f.format x).isSome = true := by
  cases x with
  | inf => rfl
  | negInf => rfl
  | nan => rfl
  | negZero => exact formatFinite_isSome f 0
  | fin q => exact formatFinite_isSome f q

/-! ### Separator swap (C8) -/

theorem swapSep_involutive : ∀ c, swapSep (swapSep c) = c := by
  intro c
  by_cases h1 : c = '.'
  · subst h1; decide
  · by_cases h2 : c = ','
    · subst h2; decide
    · unfold swapSep
      rw [if_neg h1, if_neg h2, if_neg h1, if_neg h2]

theorem swapSep_injective : Function.Injective swapSep :=
  Function.Involutive.injective swapSep_involutive

theorem formatFinite_swap (r : Rounding) (sc : Scaling) (sg : Sign) (x0 : ℚ) :
    (formatFinite ⟨[','], ['.'], r, sc, sg⟩ x0).map (List.map swapSep)
      = formatFinite ⟨['.'], [','], r, sc, sg⟩ x0 := by
  rw [formatFinite_eq, formatFinite_eq]
  dsimp only []
  rw [if_neg (by decide), if_neg (by decide)]
  set xr := applyRounding r x0 with hxr
  set s0 := applySign sg xr (renderScaled sc r xr) with hs0
  have hcomma : ',' ∉ s0 := by
    intro hm
    rcases mem_applySign (hs0 ▸ hm) with h1 | h1
    · exact renderScaled_no_comma _ _ _ h1
    · exact absurd h1 (by decide)
  cases hI : insertGroupSeps s0 with
  | none => rfl
  | some s1 =>
    have hc1 : ',' ∉ s1 := by
      intro hm
      rcases mem_of_insertGroupSeps hI hm with h1 | h1
      · exact hcomma h1
      · exact absurd h1 (by decide)
    simp only [Option.map_some']
    congr 1
    rw [replaceAll_single, replaceAll_single]
    have hid : s1.map (fun c => if c = '.' then '.' else c) = s1 := by
      have he : (fun c : Char => if c = '.' then '.' else c) = fun c => c := by
        funext c
        by_cases h : c = '.' <;> simp [h]
      rw [he, List.map_id']
    rw [hid, replaceAll_map swapSep_injective]
    have hM : gsMarker.map swapSep = gsMarker := by decide
    have hdot : (['.'] : List Char).map swapSep = [','] := by decide
    rw [hM, hdot, List.map_map]
    congr 1
    have hpt : ∀ c ∈ s1, (swapSep ∘ fun c => if c = '.' then ',' else c) c = c := by
      intro c hc
      simp only [Function.comp_apply]
      by_cases h : c = '.'
      · subst h; decide
      · rw [if_neg h]
        unfold swapSep
        have hnc : ¬(c = ',') := fun hcc => hc1 (hcc ▸ hc)
        rw [if_neg h, if_neg hnc]
    rw [List.map_congr_left hpt, List.map_id']

/-- C8: formatting with group separator `"."` and decimal separator `","`
versus group `","` and decimal `"."` yields outputs that are exact
character-for-character swaps of each other, for every value and otherwise
identical configuration. -/
theorem c8_separator_swap (r : Rounding) (sc : Scaling) (sg : Sign) (x : F64) :
    ((Formatter.mk [','] ['.'] r sc sg).format x).map (List.map swapSep)
      = (Formatter.mk ['.'] [','] r sc sg).format x := by
  cases x with
  | inf => rfl
  | negInf => rfl
  | nan => rfl
  | negZero => exact formatFinite_swap r sc sg 0
  | fin q => exact formatFinite_swap r sc sg q

/-! ### Rounding the value one (used to refute the trailing-zero claim) -/

theorem roundTiesEven_of_lt_half {q : ℚ} (h0 : 0 ≤ q) (h : q < 1/2) :
    roundTiesEven q = 0 := by
  unfold roundTiesEven
  have hf : ⌊q⌋ = 0 := Int.floor_eq_zero_iff.mpr ⟨h0, by linarith⟩
  rw [hf]
  have hlt : q - ((0:ℤ):ℚ) < 1/2 := by push_cast; linarith
  rw [if_pos hlt]

theorem round_mag_one (p : ℤ) : round_mag 1 p = if p ≤ 0 then 1 else 0 := by
  unfold round_mag
  rw [if_neg one_ne_zero]
  by_cases hp : p ≤ 0
  · rw [if_pos hp]
    obtain ⟨n, hn⟩ : ∃ n : ℕ, -p = (n:ℤ) := ⟨(-p).toNat, (Int.toNat_of_nonneg (by omega)).symm⟩
    rw [one_mul, hn, zpow_natCast]
    have hcast : ((10:ℚ))^n = (((10^n : ℕ) : ℤ) : ℚ) := by push_cast; ring
    rw [hcast, roundTiesEven_intCast]
    push_cast
    rw [← zpow_natCast (10:ℚ) n, ← zpow_add₀ (by norm_num : (10:ℚ) ≠ 0)]
    rw [show (n:ℤ) + p = 0 by omega]
    norm_num
  · rw [if_neg hp]
    have h1 : (0:ℚ) < (10:ℚ) ^ (-p) := zpow_pos (by norm_num) _
    have h2 : (10:ℚ) ^ (-p) < 1/2 := by
      have hle : (10:ℚ) ^ (-p) ≤ (10:ℚ) ^ (-1 : ℤ) :=
        zpow_le_zpow_right₀ (by norm_num) (by omega)
      have h110 : (10:ℚ) ^ (-1 : ℤ) = 1/10 := by norm_num
      rw [h110] at hle
      linarith
    rw [one_mul, roundTiesEven_of_lt_half (le_of_lt h1) h2]
    push_cast
    ring

theorem round_sig_one (n : ℕ) : round_sig 1 n = if n = 0 then 0 else 1 := by
  unfold round_sig
  by_cases hn : n = 0
  · rw [if_pos (Or.inr hn), if_pos hn]
  · rw [if_neg (by push_neg; exact ⟨one_ne_zero, hn⟩), if_neg hn]
    have h1 : intLogQ 10 |(1:ℚ)| = 0 := by
      rw [abs_one, intLogQ_eq, Int.log_one_right]
    rw [h1, round_mag_one, if_pos (by omega)]

theorem applyRounding_one (r : Rounding) :
    applyRounding r 1 = 0 ∨ applyRounding r 1 = 1 := by
  cases r with
  | Magnitude p =>
    show round_mag 1 p = 0 ∨ round_mag 1 p = 1
    rw [round_mag_one]
    by_cases hp : p ≤ 0
    · right; rw [if_pos hp]
    · left; rw [if_neg hp]
  | SignificantDigits n =>
    show round_sig 1 n = 0 ∨ round_sig 1 n = 1
    rw [round_sig_one]
    by_cases hn : n = 0
    · left; rw [if_pos hn]
    · right; rw [if_neg hn]

theorem fracDigitCount_renderScaled_zero (sc : Scaling) (r : Rounding)
    (hsc : sc ≠ Scaling.Scientific) :
    fracDigitCount (renderScaled sc r 0) =
      if 0 < (dec_places sc r 0).toNat then some (dec_places sc r 0).toNat else none := by
  cases sc with
  | None =>
    rw [renderScaled_none_eq]
    exact fracDigitCount_renderFixed _ _
  | Binary ws =>
    have hfb : findUnit (magFloor (Scaling.Binary ws) 0) BINARY_PREFIXES
        = some ((0:ℤ), (10:ℤ), ([] : List Char)) := by
      rw [magFloor_zero]
      decide
    rw [renderScaled_binary_some ws r 0 hfb]
    exact fracDigitCount_unitBranch _ _ _ fun c hc => absurd hc (List.not_mem_nil c)
  | Decimal ws =>
    have hfd : findUnit (magFloor (Scaling.Decimal ws) 0) DECIMAL_PREFIXES
        = some ((0:ℤ), (3:ℤ), ([] : List Char)) := by
      rw [magFloor_zero]
      decide
    rw [renderScaled_decimal_some ws r 0 hfd]
    exact fracDigitCount_unitBranch _ _ _ fun c hc => absurd hc (List.not_mem_nil c)
  | Scientific => exact absurd rfl hsc

/-- C3 (counterexample): the renderer never trims trailing fractional zeros;
there is no configuration under which the rendered fraction of the input `1`
(whose fractional digits are all zeros) is shorter than the computed
decimal-place count.  This refutes the existence of a trailing-zero policy. -/
theorem c3_counterexample :
    ¬ ∃ f : Formatter,
        0 < (dec_places f.scaling f.rounding (applyRounding f.rounding 1)).toNat ∧
        fracDigitCount (renderScaled f.scaling f.rounding (applyRounding f.rounding 1))
          ≠ some (dec_places f.scaling f.rounding (applyRounding f.rounding 1)).toNat := by
  rintro ⟨f, hdp, hne⟩
  obtain ⟨d, g, r, sc, sg⟩ := f
  dsimp only [] at hdp hne
  have key : ∀ x : ℚ, applyRounding r 1 = x → (x = 0 ∨ x = 1) →
      (fracDigitCount (renderScaled sc r x) =
        if 0 < (dec_places sc r x).toNat then some (dec_places sc r x).toNat else none) ∨
      (x = 0 ∧ sc = Scaling.Scientific) := by
    intro x hx hx01
    rcases hx01 with h0 | h1
    · by_cases hsc : sc = Scaling.Scientific
      · exact Or.inr ⟨h0, hsc⟩
      · subst h0
        exact Or.inl (fracDigitCount_renderScaled_zero sc r hsc)
    · subst h1
      exact Or.inl (fracDigitCount_renderScaled sc r one_pos)
  rcases key (applyRounding r 1) rfl (applyRounding_one r) with hgood | ⟨h0, hsc⟩
  · rw [hgood] at hne
    rw [if_pos hdp] at hne
    exact hne rfl
  · subst hsc
    rw [h0] at hdp
    cases r with
    | Magnitude p =>
      have : dec_places Scaling.Scientific (Rounding.Magnitude p) 0 = 0 := by
        unfold dec_places
        exact magFloor_zero _
      rw [this] at hdp
      exact absurd hdp (by decide)
    | SignificantDigits n =>
      have hn0 : n = 0 := by
        have := round_sig_one n
        rw [show applyRounding (Rounding.SignificantDigits n) 1
            = round_sig 1 n from rfl] at h0
        by_contra hne0
        rw [this, if_neg hne0] at h0
        exact one_ne_zero h0
      subst hn0
      have : dec_places Scaling.Scientific (Rounding.SignificantDigits 0) 0 = -1 := by
        unfold dec_places
        norm_num
      rw [this] at hdp
      exact absurd hdp (by decide)

/-- C3 (amended): there is no trailing-zero policy in the configuration; for
every configuration whose rounded value is positive, the rendered number
carries exactly the computed number of fractional digits — trailing zeros
included — and a decimal point appears exactly when that count is positive. -/
theorem c3_amended (sc : Scaling) (r : Rounding) (x0 : ℚ)
    (hx : 0 < applyRounding r x0) :
    fracDigitCount (renderScaled sc r (applyRounding r x0)) =
      if 0 < (dec_places sc r (applyRounding r x0)).toNat
      then some (dec_places sc r (applyRounding r x0)).toNat else none :=
  fracDigitCount_renderScaled sc r hx

/-- Witness for `c3_amended` at the default configuration and input `1`:
the rendered fraction has exactly the computed three digits, all zeros. -/
theorem c3_amended_witness :
    (0 < applyRounding (Rounding.SignificantDigits 4) 1) ∧
      fracDigitCount (renderScaled (Scaling.Decimal true) (Rounding.SignificantDigits 4)
          (applyRounding (Rounding.SignificantDigits 4) 1)) =
        if 0 < (dec_places (Scaling.Decimal true) (Rounding.SignificantDigits 4)
            (applyRounding (Rounding.SignificantDigits 4) 1)).toNat
        then some ((dec_places (Scaling.Decimal true) (Rounding.SignificantDigits 4)
            (applyRounding (Rounding.SignificantDigits 4) 1)).toNat) else none :=
  ⟨by decide, c3_amended (Scaling.Decimal true) (Rounding.SignificantDigits 4) 1 (by decide)⟩

/-- C9 (amended): both rounding primitives return (positive) zero on a zero
input and `format(-0.0)` equals `format(+0.0)` under every configuration; a
zero input never yields a minus sign provided the scaling mode is not
`Scientific` (where zero renders as `"NaN * 10^(-inf)"`) and the configured
separator strings do not themselves contain `'-'`. -/
theorem c9_amended :
    (∀ f : Formatter, f.format F64.negZero = f.format (F64.fin 0)) ∧
    (∀ f : Formatter, f.scaling ≠ Scaling.Scientific →
      '-' ∉ f.decimal_separator → '-' ∉ f.group_separator →
      ∀ s, f.format (F64.fin 0) = some s → '-' ∉ s) ∧
    (∀ m : ℤ, round_mag 0 m = 0) ∧ (∀ n : ℕ, round_sig 0 n = 0) := by
  refine ⟨fun f => rfl, ?_, round_mag_zero, fun n => (round_sig_zero 0 n).2⟩
  intro f hsc hd hg s hs hmem
  rw [format_fin, formatFinite_eq] at hs
  have hr0 : applyRounding f.rounding 0 = 0 := by
    cases hr : f.rounding with
    | Magnitude p => exact round_mag_zero p
    | SignificantDigits n => exact (round_sig_zero 0 n).2
  rw [hr0] at hs
  set s0 := applySign f.sign 0 (renderScaled f.scaling f.rounding 0) with hs0
  have hs0m : '-' ∉ s0 := by
    intro hm
    rcases mem_applySign (hs0 ▸ hm) with h1 | h1
    · exact renderScaled_zero_no_minus f.scaling f.rounding hsc h1
    · exact absurd h1 (by decide)
  by_cases hgs : f.group_separator = []
  · rw [if_pos hgs, Option.map_some'] at hs
    rw [← Option.some_inj.mp hs] at hmem
    rcases mem_postSeparators hmem with h1 | h1 | h1
    · exact hs0m h1
    · exact hd h1
    · exact hg h1
  · rw [if_neg hgs] at hs
    cases hI : insertGroupSeps s0 with
    | none => rw [hI] at hs; exact absurd hs (by simp)
    | some s1 =>
      rw [hI, Option.map_some'] at hs
      rw [← Option.some_inj.mp hs] at hmem
      rcases mem_postSeparators hmem with h1 | h1 | h1
      · rcases mem_of_insertGroupSeps hI h1 with h2 | h2
        · exact hs0m h2
        · exact absurd h2 (by decide)
      · exact hd h1
      · exact hg h1

/-- Witness for `c9_amended`: the default configuration maps `-0.0` and
`+0.0` to the same output, and that output (`"0,000"`) carries no minus. -/
theorem c9_amended_witness :
    Formatter.new.format F64.negZero = Formatter.new.format (F64.fin 0) ∧
      '-' ∉ "0,000".data :=
  ⟨c9_amended.1 Formatter.new,
    c9_amended.2.1 Formatter.new (by decide) (by decide) (by decide) "0,000".data (by decide)⟩

/-! ### The scientific fallback on powers of ten (C5) -/

theorem round_mag_pow10 {k : ℕ} {m : ℤ} (hm : m ≤ k) :
    round_mag ((10:ℚ)^k) m = (10:ℚ)^k := by
  have hpos : (0:ℚ) < (10:ℚ)^k := by positivity
  have hne : ((10:ℚ)^k) ≠ 0 := ne_of_gt hpos
  have h10 : (10:ℚ) ≠ 0 := by norm_num
  unfold round_mag
  rw [if_neg hne]
  obtain ⟨n, hn⟩ : ∃ n : ℕ, (k:ℤ) - m = n :=
    ⟨((k:ℤ) - m).toNat, (Int.toNat_of_nonneg (by omega)).symm⟩
  have e1 : (10:ℚ)^k * (10:ℚ) ^ (-m) = (((10^n : ℕ) : ℤ) : ℚ) := by
    push_cast
    rw [← zpow_natCast (10:ℚ) k, ← zpow_natCast (10:ℚ) n,
      ← zpow_add₀ h10]
    congr 1
  rw [e1, roundTiesEven_intCast]
  push_cast
  rw [← zpow_natCast (10:ℚ) n, ← zpow_natCast (10:ℚ) k, ← zpow_add₀ h10]
  congr 1
  omega

theorem intLogQ_pow10 (k : ℕ) : intLogQ 10 ((10:ℚ)^k) = (k:ℤ) := by
  have h10 : ((10:ℕ):ℚ) = (10:ℚ) := by norm_num
  rw [intLogQ_eq, show (10:ℚ)^k = ((10:ℕ):ℚ) ^ ((k:ℕ):ℤ) by rw [h10, zpow_natCast]]
  exact Int.log_zpow (by norm_num) _

theorem round_sig_pow10 (k : ℕ) : round_sig ((10:ℚ)^k) 4 = (10:ℚ)^k := by
  have hpos : (0:ℚ) < (10:ℚ)^k := by positivity
  have hne : ((10:ℚ)^k) ≠ 0 := ne_of_gt hpos
  unfold round_sig
  rw [if_neg (by push_neg; exact ⟨hne, by norm_num⟩)]
  rw [abs_of_pos hpos, intLogQ_pow10 k]
  exact round_mag_pow10 (by omega)

theorem findUnit_decimal_none_of_ge {m : ℤ} (hm : 33 ≤ m) :
    findUnit m DECIMAL_PREFIXES = none := by
  apply findUnit_eq_none
  intro u hu
  unfold DECIMAL_PREFIXES at hu
  fin_cases hu <;> (rintro ⟨h1, h2⟩; dsimp only [] at h1 h2; omega)

/-- C5: under the default configuration, every power of ten at or beyond the
last decimal table bucket (magnitude `≥ 33`) renders in the scientific
fallback form `"1,000 * 10^(<exponent>)"` — never clamped into a bucket. -/
theorem c5_scientific_fallback (k : ℕ) (hk : 33 ≤ k) :
    Formatter.new.format (F64.fin ((10:ℚ)^k)) =
      some ("1,000 * 10^(".data ++ (natDigits k ++ [')'])) := by
  have hpos : (0:ℚ) < (10:ℚ)^k := by positivity
  have hne : ((10:ℚ)^k) ≠ 0 := ne_of_gt hpos
  have hround : applyRounding Formatter.new.rounding ((10:ℚ)^k) = (10:ℚ)^k := by
    show round_sig ((10:ℚ)^k) 4 = (10:ℚ)^k
    exact round_sig_pow10 k
  have hmag : magFloor (Scaling.Decimal true) ((10:ℚ)^k) = (k:ℤ) := by
    unfold magFloor
    rw [if_neg hne]
    show intLogQ 10 |(10:ℚ)^k| = (k:ℤ)
    rw [abs_of_pos hpos, intLogQ_pow10 k]
  have hfind : findUnit (magFloor (Scaling.Decimal true) ((10:ℚ)^k)) DECIMAL_PREFIXES
      = none := by
    rw [hmag]
    exact findUnit_decimal_none_of_ge (by exact_mod_cast hk)
  have hdp : dec_places (Scaling.Decimal true) (Rounding.SignificantDigits 4)
      ((10:ℚ)^k) = 3 := by
    unfold dec_places
    rw [hfind]
    norm_num
  have hsci : sciChars 10 ((10:ℚ)^k) 3 =
      ['1', '.', '0', '0', '0', ' ', '*', ' ', '1', '0', '^', '(']
        ++ (natDigits k ++ [')']) := by
    unfold sciChars
    rw [if_pos hpos, intLogQ_pow10 k]
    have hm : (10:ℚ)^k / ((10:ℕ):ℚ) ^ ((k:ℕ):ℤ) = 1 := by
      rw [show ((10:ℕ):ℚ) = (10:ℚ) by norm_num, zpow_natCast]
      exact div_self hne
    rw [hm]
    have hrf : renderFixed 1 3 = ['1', '.', '0', '0', '0'] := by decide
    have hnd : natDigits 10 = ['1', '0'] := by decide
    have hic : intChars ((k:ℕ):ℤ) = natDigits k := by
      unfold intChars
      rw [if_neg (by omega), Int.natAbs_ofNat]
    rw [hrf, hnd, hic]
    simp [List.append_assoc]
  have hrs : renderScaled Formatter.new.scaling Formatter.new.rounding ((10:ℚ)^k) =
      ['1', '.', '0', '0', '0', ' ', '*', ' ', '1', '0', '^', '(']
        ++ (natDigits k ++ [')']) := by
    show renderScaled (Scaling.Decimal true) (Rounding.SignificantDigits 4) ((10:ℚ)^k) = _
    rw [renderScaled_decimal_none true _ _ hfind, hdp]
    exact hsci
  have hsign : applySign Formatter.new.sign ((10:ℚ)^k)
      (['1', '.', '0', '0', '0', ' ', '*', ' ', '1', '0', '^', '(']
        ++ (natDigits k ++ [')'])) =
      ['1', '.', '0', '0', '0', ' ', '*', ' ', '1', '0', '^', '(']
        ++ (natDigits k ++ [')']) := by
    unfold applySign
    rw [if_neg]
    rintro ⟨h1, -⟩
    exact absurd h1 (by decide)
  rw [format_fin, formatFinite_eq, hround, hrs, hsign, if_neg (by decide)]
  have hins : insertGroupSeps
      (['1', '.', '0', '0', '0', ' ', '*', ' ', '1', '0', '^', '(']
        ++ (natDigits k ++ [')'])) =
      some (['1', '.', '0', '0', '0', ' ', '*', ' ', '1', '0', '^', '(']
        ++ (natDigits k ++ [')'])) := rfl
  rw [hins, Option.map_some']
  have hrep1 : replaceAll ['.'] Formatter.new.decimal_separator
      (['1', '.', '0', '0', '0', ' ', '*', ' ', '1', '0', '^', '(']
        ++ (natDigits k ++ [')'])) =
      ['1', ',', '0', '0', '0', ' ', '*', ' ', '1', '0', '^', '(']
        ++ (natDigits k ++ [')']) := by
    show replaceAll ['.'] [','] _ = _
    rw [replaceAll_single, List.map_append, List.map_append]
    have h1 : (['1', '.', '0', '0', '0', ' ', '*', ' ', '1', '0', '^', '('] :
        List Char).map (fun c => if c = '.' then ',' else c) =
        ['1', ',', '0', '0', '0', ' ', '*', ' ', '1', '0', '^', '('] := by decide
    have h2 : (natDigits k).map (fun c => if c = '.' then ',' else c) = natDigits k := by
      have hpt : ∀ c ∈ natDigits k, (fun c => if c = '.' then ',' else c) c = c := by
        intro c hc
        exact if_neg (ne_of_isDigit (mem_natDigits_isDigit hc) (by decide))
      rw [List.map_congr_left hpt, List.map_id']
    have h3 : ([')'] : List Char).map (fun c => if c = '.' then ',' else c) = [')'] := by
      decide
    rw [h1, h2, h3]
  rw [hrep1]
  have hrep2 : replaceAll gsMarker Formatter.new.group_separator
      (['1', ',', '0', '0', '0', ' ', '*', ' ', '1', '0', '^', '(']
        ++ (natDigits k ++ [')'])) =
      ['1', ',', '0', '0', '0', ' ', '*', ' ', '1', '0', '^', '(']
        ++ (natDigits k ++ [')']) := by
    show replaceAll gsMarker ['.'] _ = _
    rw [show gsMarker = Char.ofNat 123 ::
      ['G', 'R', 'O', 'U', 'P', ' ', 'S', 'E', 'P', 'A', 'R', 'A', 'T', 'O', 'R',
        Char.ofNat 125] from rfl]
    apply replaceAll_not_head
    intro hmem
    rcases List.mem_append.mp hmem with h1 | h1
    · exact absurd h1 (by decide)
    · rcases List.mem_append.mp h1 with h2 | h2
      · exact absurd (mem_natDigits_isDigit h2) (by decide)
      · exact absurd h2 (by decide)
  rw [hrep2]

/-- Witness for `c5_scientific_fallback` at `k = 33`: `format(1e33)` is
exactly `"1,000 * 10^(33)"`. -/
theorem c5_witness :
    33 ≤ 33 ∧ Formatter.new.format (F64.fin ((10:ℚ)^(33:ℕ)))
      = some "1,000 * 10^(33)".data := by
  refine ⟨le_rfl, ?_⟩
  have h := c5_scientific_fallback 33 le_rfl
  rw [h]
  decide

/-! ### The saturating layer: `roundF64` bounds and the overflow paths -/

theorem roundTiesEven_ge (q : ℚ) : q - 1/2 ≤ (roundTiesEven q : ℚ) := by
  unfold roundTiesEven
  have h1 : ((⌊q⌋ : ℚ)) ≤ q := Int.floor_le q
  have h2 : q < ⌊q⌋ + 1 := Int.lt_floor_add_one q
  by_cases hc1 : q - ⌊q⌋ < 1/2
  · rw [if_pos hc1]
    linarith
  · rw [if_neg hc1]
    by_cases hc2 : 1/2 < q - ⌊q⌋
    · rw [if_pos hc2]
      push_cast
      linarith
    · rw [if_neg hc2]
      push_neg at hc2
      by_cases hc3 : ⌊q⌋ % 2 = 0
      · rw [if_pos hc3]
        linarith
      · rw [if_neg hc3]
        push_cast
        linarith

theorem roundF64_inf_of_ge {q : ℚ} (h : (2:ℚ) ^ (1025:ℕ) ≤ q) :
    roundF64 q = F64.inf := by
  have hq0 : 0 < q := lt_of_lt_of_le (by positivity) h
  have habs : |q| = q := abs_of_pos hq0
  have h2Q : ((2:ℕ):ℚ) = (2:ℚ) := by norm_num
  have hlog : (1025:ℤ) ≤ intLogQ 2 |q| := by
    rw [habs, intLogQ_eq]
    have hm : Int.log 2 ((2:ℚ) ^ (1025:ℕ)) ≤ Int.log 2 q :=
      Int.log_mono_right (by positivity) h
    rw [show ((2:ℚ) ^ (1025:ℕ)) = ((2:ℕ):ℚ) ^ ((1025:ℕ):ℤ) by
      rw [h2Q, zpow_natCast], Int.log_zpow (by norm_num)] at hm
    exact_mod_cast hm
  unfold roundF64
  rw [if_neg (ne_of_gt hq0)]
  dsimp only []
  rw [max_eq_left (by omega : (-1074:ℤ) ≤ intLogQ 2 |q| - 52)]
  set E := intLogQ 2 |q| with hEdef
  have hq2E : (2:ℚ) ^ E ≤ |q| := by
    rw [hEdef, intLogQ_eq]
    have hz := Int.zpow_log_le_self (b := 2) (r := |q|) (by norm_num)
      (by rw [habs]; exact hq0)
    rwa [h2Q] at hz
  set n := roundTiesEven (|q| * (2:ℚ) ^ (-(E - 52))) with hndef
  have hge : |q| * (2:ℚ) ^ (-(E - 52)) - 1/2 ≤ (n : ℚ) := roundTiesEven_ge _
  have hpow : (0:ℚ) < (2:ℚ) ^ (E - 52) := zpow_pos (by norm_num) _
  have hne2 : (2:ℚ) ≠ 0 := by norm_num
  have hsplit : |q| * (2:ℚ) ^ (-(E - 52)) * (2:ℚ) ^ (E - 52) = |q| := by
    rw [mul_assoc, ← zpow_add₀ hne2]
    norm_num
  have hEhalf : (2:ℚ) ^ (E - 52) ≤ |q| :=
    le_trans (zpow_le_zpow_right₀ (by norm_num) (by omega)) hq2E
  have h1024 : ((2 ^ 1024 : ℕ) : ℚ) = (2:ℚ) ^ (1024:ℕ) := by
    push_cast
    rfl
  have hq1024 : ((2 ^ 1024 : ℕ) : ℚ) ≤ q / 2 := by
    have hq25 : (2:ℚ) ^ (1025:ℕ) = 2 * ((2 ^ 1024 : ℕ) : ℚ) := by
      rw [h1024]
      ring
    rw [hq25] at h
    linarith
  have hcond : ((2 ^ 1024 : ℕ) : ℚ) ≤ (n : ℚ) * (2:ℚ) ^ (E - 52) := by
    have hmul : (|q| * (2:ℚ) ^ (-(E - 52)) - 1/2) * (2:ℚ) ^ (E - 52)
        ≤ (n : ℚ) * (2:ℚ) ^ (E - 52) :=
      mul_le_mul_of_nonneg_right hge (le_of_lt hpow)
    have hexp : (|q| * (2:ℚ) ^ (-(E - 52)) - 1/2) * (2:ℚ) ^ (E - 52)
        = |q| - (2:ℚ) ^ (E - 52) / 2 := by
      rw [sub_mul, hsplit]
      ring
    rw [hexp, habs] at hmul
    rw [habs] at hEhalf
    linarith
  rw [if_pos hcond, if_pos hq0]

theorem roundF64_zero_of_le {q : ℚ} (h0 : 0 < q) (h : q ≤ ((2:ℚ) ^ (1080:ℕ))⁻¹) :
    roundF64 q = F64.fin 0 := by
  have habs : |q| = q := abs_of_pos h0
  have h2Q : ((2:ℕ):ℚ) = (2:ℚ) := by norm_num
  have hlog : intLogQ 2 |q| ≤ -1080 := by
    rw [habs, intLogQ_eq]
    have hm : Int.log 2 q ≤ Int.log 2 (((2:ℚ) ^ (1080:ℕ))⁻¹) :=
      Int.log_mono_right h0 h
    have hpow80 : ((2:ℚ) ^ (1080:ℕ))⁻¹ = ((2:ℕ):ℚ) ^ (-(1080:ℤ)) := by
      rw [h2Q, zpow_neg]
      exact congrArg Inv.inv (zpow_natCast (2:ℚ) 1080).symm
    rwa [hpow80, Int.log_zpow (by norm_num)] at hm
  unfold roundF64
  rw [if_neg (ne_of_gt h0)]
  dsimp only []
  rw [max_eq_right (by omega : intLogQ 2 |q| - 52 ≤ (-1074:ℤ))]
  have hxlt : |q| * (2:ℚ) ^ (-(-1074:ℤ)) < 1/2 := by
    have hqle : |q| ≤ (2:ℚ) ^ (-(1080:ℤ)) := by
      rw [habs]
      refine le_trans h (le_of_eq ?_)
      rw [zpow_neg]
      exact congrArg Inv.inv (zpow_natCast (2:ℚ) 1080).symm
    have hmul : |q| * (2:ℚ) ^ (-(-1074:ℤ))
        ≤ (2:ℚ) ^ (-(1080:ℤ)) * (2:ℚ) ^ (-(-1074:ℤ)) :=
      mul_le_mul_of_nonneg_right hqle (le_of_lt (zpow_pos (by norm_num) _))
    have hred : (2:ℚ) ^ (-(1080:ℤ)) * (2:ℚ) ^ (-(-1074:ℤ)) = (2:ℚ) ^ (-(6:ℤ)) := by
      rw [← zpow_add₀ (by norm_num : (2:ℚ) ≠ 0)]
      norm_num
    have hsm : (2:ℚ) ^ (-(6:ℤ)) < 1/2 := by norm_num
    calc |q| * (2:ℚ) ^ (-(-1074:ℤ)) ≤ (2:ℚ) ^ (-(6:ℤ)) := by rw [← hred]; exact hmul
      _ < 1/2 := hsm
  have hn : roundTiesEven (|q| * (2:ℚ) ^ (-(-1074:ℤ))) = 0 :=
    roundTiesEven_of_lt_half (by positivity) hxlt
  rw [hn]
  have hnotov : ¬ (((2 ^ 1024 : ℕ) : ℚ) ≤ (((0:ℤ)):ℚ) * (2:ℚ) ^ (-1074:ℤ)) := by
    push_cast
    rw [zero_mul]
    exact not_le.mpr (by positivity)
  rw [if_neg hnotov, if_pos rfl]

theorem two_pow_le_ten_554 : (2:ℚ) ^ (1662:ℕ) ≤ (10:ℚ) ^ (554:ℕ) := by
  have h8 : (2:ℚ) ^ (1662:ℕ) = (8:ℚ) ^ (554:ℕ) := by
    rw [show (8:ℚ) = (2:ℚ) ^ (3:ℕ) by norm_num, ← pow_mul]
  rw [h8]
  exact pow_le_pow_left₀ (by norm_num) (by norm_num) _

theorem powi10_554 : powi10 554 = F64.inf := by
  unfold powi10
  apply roundF64_inf_of_ge
  calc (2:ℚ) ^ (1025:ℕ) ≤ (2:ℚ) ^ (1662:ℕ) :=
        pow_le_pow_right₀ (by norm_num) (by norm_num)
    _ ≤ (10:ℚ) ^ (554:ℕ) := two_pow_le_ten_554
    _ = (10:ℚ) ^ (554:ℤ) := (zpow_natCast 10 554).symm

theorem powi10_neg554 : powi10 (-554) = F64.fin 0 := by
  unfold powi10
  apply roundF64_zero_of_le (zpow_pos (by norm_num) _)
  rw [show ((10:ℚ) ^ (-554:ℤ)) = ((10:ℚ) ^ (554:ℕ))⁻¹ by
    rw [zpow_neg]
    exact congrArg Inv.inv (zpow_natCast (10:ℚ) 554)]
  apply inv_anti₀ (by positivity)
  calc (2:ℚ) ^ (1080:ℕ) ≤ (2:ℚ) ^ (1662:ℕ) :=
        pow_le_pow_right₀ (by norm_num) (by norm_num)
    _ ≤ (10:ℚ) ^ (554:ℕ) := two_pow_le_ten_554

theorem round_magF_one : round_magF (F64.fin 1) (-554) = F64.nan := by
  unfold round_magF
  rw [if_neg (by decide : ¬(feq (F64.fin 1) (F64.fin 0) = true))]
  rw [show (-(-554:ℤ)) = (554:ℤ) by norm_num]
  rw [powi10_554, powi10_neg554]
  decide

theorem formatF_fin (f : Formatter) (q : ℚ) :
    formatF f (F64.fin q) =
      (if f.group_separator = []
        then some (applySignF f.sign (applyRoundingF f.rounding (F64.fin q))
          (renderScaledF f.scaling f.rounding (applyRoundingF f.rounding (F64.fin q))))
        else insertGroupSeps (applySignF f.sign (applyRoundingF f.rounding (F64.fin q))
          (renderScaledF f.scaling f.rounding (applyRoundingF f.rounding (F64.fin q))))).map
      fun s1 => replaceAll gsMarker f.group_separator
        (replaceAll ['.'] f.decimal_separator s1) := rfl

theorem formatF_negZero (f : Formatter) :
    formatF f F64.negZero =
      (if f.group_separator = []
        then some (applySignF f.sign (applyRoundingF f.rounding F64.negZero)
          (renderScaledF f.scaling f.rounding (applyRoundingF f.rounding F64.negZero)))
        else insertGroupSeps (applySignF f.sign (applyRoundingF f.rounding F64.negZero)
          (renderScaledF f.scaling f.rounding (applyRoundingF f.rounding F64.negZero)))).map
      fun s1 => replaceAll gsMarker f.group_separator
        (replaceAll ['.'] f.decimal_separator s1) := rfl

theorem mem_applySignF_of_mem {sg : Sign} {x : F64} {s : List Char} {c : Char}
    (hc : c ∈ s) : c ∈ applySignF sg x s := by
  unfold applySignF
  by_cases h : sg = Sign.Always ∧ is_sign_positiveF x = true
  · rw [if_pos h]
    exact List.mem_cons_of_mem _ hc
  · rw [if_neg h]
    exact hc

theorem formatF_tail_isSome (f : Formatter) {s : List Char}
    (hs : ∃ c ∈ s, c.isDigit = true) :
    ((if f.group_separator = [] then some s else insertGroupSeps s).map
      fun s1 => replaceAll gsMarker f.group_separator
        (replaceAll ['.'] f.decimal_separator s1)).isSome = true := by
  by_cases hg : f.group_separator = []
  · rw [if_pos hg]
    rfl
  · rw [if_neg hg]
    obtain ⟨c, hc, hcd⟩ := hs
    obtain ⟨t, ht, -⟩ := insertGroupSeps_of_any_digit
      (List.any_eq_true.mpr ⟨c, hc, hcd⟩)
    rw [ht]
    rfl

/-- C10 (counterexample): the digit-search `expect` panic is reachable from
a finite input.  `round_mag(1.0, -554)` saturates to `NaN`
(`powi(10,554) = ∞`, `powi(10,-554) = 0`, `∞ * 0 = NaN`); under
`Scaling::None` with the default separators the value then renders as the
digit-less string `"NaN"`, the digit search of the separator-injection
block finds nothing, and `format` panics (modelled by `none`). -/
theorem c10_counterexample :
    round_magF (F64.fin 1) (-554) = F64.nan ∧
    formatF ⟨[','], ['.'], Rounding.Magnitude (-554), Scaling.None, Sign.OnlyMinus⟩
      (F64.fin 1) = none := by
  refine ⟨round_magF_one, ?_⟩
  rw [formatF_fin]
  dsimp only []
  have hr : applyRoundingF (Rounding.Magnitude (-554)) (F64.fin 1) = F64.nan :=
    round_magF_one
  rw [hr]
  decide

/-- C10 (amended): the digit-search `expect` branches are unreachable as
long as the value after rounding is still finite: the rendered string then
contains a decimal digit, and `formatF` returns a string for every
configuration and every input.  (By `c10_counterexample` above, a finite
input whose rounding saturates does reach the panic under
`Scaling::None`.) -/
theorem c10_amended (f : Formatter) (x : F64) (q : ℚ)
    (h : applyRoundingF f.rounding x = F64.fin q) :
    (formatF f x).isSome = true := by
  cases x with
  | inf => rfl
  | negInf => rfl
  | nan => rfl
  | negZero =>
    rw [formatF_negZero, h,
      show renderScaledF f.scaling f.rounding (F64.fin q)
        = renderScaled f.scaling f.rounding q from rfl]
    apply formatF_tail_isSome
    obtain ⟨c, hc, hcd⟩ := renderScaled_exists_digit f.scaling f.rounding q
    exact ⟨c, mem_applySignF_of_mem hc, hcd⟩
  | fin q0 =>
    rw [formatF_fin, h,
      show renderScaledF f.scaling f.rounding (F64.fin q)
        = renderScaled f.scaling f.rounding q from rfl]
    apply formatF_tail_isSome
    obtain ⟨c, hc, hcd⟩ := renderScaled_exists_digit f.scaling f.rounding q
    exact ⟨c, mem_applySignF_of_mem hc, hcd⟩

set_option maxRecDepth 8192 in
/-- Witness for `c10_amended`: the default configuration rounds the finite
input `1` to the finite value `1`, and `formatF` returns a string. -/
theorem c10_amended_witness :
    applyRoundingF Formatter.new.rounding (F64.fin 1) = F64.fin 1 ∧
    (formatF Formatter.new (F64.fin 1)).isSome = true :=
  ⟨by decide, c10_amended Formatter.new (F64.fin 1) 1 (by decide)⟩

end Proofs

end Scaler
